import Mathlib

/-
Verification of the Sales Data Analysis cleaning pipeline
(src/MSc Data Science Projects/Sales Data Analysis/Scripts/Sales Analysis.py).

The script is a linear pandas program.  We embed its cleaning pipeline
shallowly: a table is a list of column names plus a list of rows, a cell is a
`Val` (rational number, string, parsed date, or missing marker, mirroring a
pandas cell of float / object / datetime64 dtype, where NaN and NaT are both
"missing").  Each numbered step of the script becomes a Lean function on
tables; steps that can raise a pandas exception (KeyError on a missing column,
`mode()[0]` on an empty mode series, `.str` on a non-object column) return
`Except SchemaError`.  Column dtypes are fixed by `read_csv`, so the kind of
every column (numeric / datetime / object) is classified once from the table
as loaded and passed to the imputation and priority steps, exactly as pandas
dtypes persist through `dropna` and `fillna`.
-/

/-- Euclid's algorithm with explicit fuel so that it is structurally
recursive and evaluates inside the kernel; `fuel = m + 1` always suffices. -/
def natGcdFuel : Nat → Nat → Nat → Nat
  | 0, _, n => n
  | _ + 1, 0, n => n
  | f + 1, m + 1, n => natGcdFuel f (n % (m + 1)) (m + 1)

def natGcd (m n : Nat) : Nat := natGcdFuel (m + 1) m n

/-- Exact rational numbers represented as numerator / positive denominator,
normalized after every operation.  (The values of the data set are floats; we
model their arithmetic exactly, which is faithful for the small decimal
quantities involved.) -/
structure Frac where
  num : Int
  den : Nat
deriving DecidableEq

def Frac.norm (a : Frac) : Frac :=
  if a.den = 0 then ⟨0, 1⟩
  else
    let g := natGcd a.num.natAbs a.den
    ⟨a.num / Int.ofNat g, a.den / g⟩

/-- The denominator as a positive integer (degenerate 0 treated as 1). -/
def Frac.posDen (a : Frac) : Int := Int.ofNat (if a.den = 0 then 1 else a.den)

def Frac.add (a b : Frac) : Frac :=
  Frac.norm ⟨a.num * Int.ofNat b.den + b.num * Int.ofNat a.den, a.den * b.den⟩

def Frac.neg (a : Frac) : Frac := ⟨-a.num, a.den⟩

def Frac.sub (a b : Frac) : Frac := a.add b.neg

def Frac.mul (a b : Frac) : Frac := Frac.norm ⟨a.num * b.num, a.den * b.den⟩

def Frac.inv (a : Frac) : Frac :=
  if 0 ≤ a.num then ⟨Int.ofNat a.den, a.num.natAbs⟩
  else ⟨-Int.ofNat a.den, a.num.natAbs⟩

def Frac.div (a b : Frac) : Frac := a.mul b.inv

/-- Comparison by cross multiplication (denominators are positive). -/
def Frac.le (a b : Frac) : Bool := decide (a.num * b.posDen ≤ b.num * a.posDen)

/-- The fraction `n / 1`. -/
def fq (n : Int) : Frac := ⟨n, 1⟩

/-- A cell value: float (`num`), object/string (`str`), parsed datetime
(`dateVal`), or a missing marker (NaN / NaT / None). -/
inductive Val where
  | num (q : Frac)
  | str (s : String)
  | dateVal (s : String)
  | missing
deriving DecidableEq

/-- An in-memory data frame: column names plus rows of cells. -/
structure Table where
  cols : List String
  rows : List (List Val)
deriving DecidableEq

instance {ε α : Type} [DecidableEq ε] [DecidableEq α] : DecidableEq (Except ε α) := fun a b =>
  match a, b with
  | .ok x, .ok y =>
    if h : x = y then .isTrue (by rw [h]) else .isFalse (fun hh => by cases hh; exact h rfl)
  | .error x, .error y =>
    if h : x = y then .isTrue (by rw [h]) else .isFalse (fun hh => by cases hh; exact h rfl)
  | .ok _, .error _ => .isFalse (fun hh => by cases hh)
  | .error _, .ok _ => .isFalse (fun hh => by cases hh)

/-- Read the cell of a row at a column index (missing when out of range). -/
def getCell (r : List Val) (i : Nat) : Val := r.getD i Val.missing

/-- Write the cell of a row at a column index (no-op when out of range). -/
def setCell (r : List Val) (i : Nat) (v : Val) : List Val := r.set i v

/-- Pad / truncate a row to exactly `n` cells (rows of a real data frame are
always rectangular, so on well-formed input this is the identity). -/
def padTo (n : Nat) (r : List Val) : List Val :=
  r.take n ++ List.replicate (n - r.length) Val.missing

/-- Index of the first column with the given name, like `df['name']` column
resolution. -/
def colIdx (c : String) : List String → Option Nat
  | [] => none
  | x :: xs => if x = c then some 0 else (colIdx c xs).map (· + 1)

/-- Values of the column at index `i`, top to bottom. -/
def colVals (t : Table) (i : Nat) : List Val := t.rows.map (fun r => getCell r i)

/-- Drop leading and trailing whitespace, as Python `str.strip()`. -/
def trimChars (l : List Char) : List Char :=
  ((l.dropWhile Char.isWhitespace).reverse.dropWhile Char.isWhitespace).reverse

/-- Python `str.capitalize()`: first character uppercased, the rest
lowercased. -/
def pyCapitalizeChars : List Char → List Char
  | [] => []
  | c :: cs => c.toUpper :: cs.map Char.toLower

/-- Line 104 of the script: `.str.capitalize().str.strip()` — capitalize
first, strip afterwards. -/
def capStrip (s : String) : String := String.mk (trimChars (pyCapitalizeChars s.data))

/-- Lines 54-60: column-name normalization — strip, lowercase, delete the
pound-sign and stray-encoding characters, replace spaces by underscores. -/
def normName (s : String) : String :=
  String.mk
    ((((trimChars s.data).map Char.toLower).filter
        (fun c => !(c == '£') && !(c == 'â'))).map
      (fun c => if c == ' ' then '_' else c))

/-- A fatal pipeline error: the pandas exception that aborts the script
(KeyError on a missing column, `mode()[0]` on an all-missing column,
`.str` accessor on a non-object column). -/
inductive SchemaError where
  | missingColumn (c : String)
  | emptyMode (c : String)
  | notStringColumn (c : String)
deriving DecidableEq

/-- The dtype-derived kind of a column. -/
inductive ColKind where
  | numeric
  | datetime
  | object
deriving DecidableEq

def isNumOrMissing : Val → Bool
  | .num _ => true
  | .missing => true
  | _ => false

def isDateV : Val → Bool
  | .dateVal _ => true
  | _ => false

def isDateOrMissing : Val → Bool
  | .dateVal _ => true
  | .missing => true
  | _ => false

/-- Classify a column as pandas dtypes would: a nonempty column of numbers
and NaN is float64 (`numeric`, including an all-NaN column), a column of
timestamps and NaT is datetime64, anything else — including every column of a
zero-row frame, which `read_csv` types as object — is object. -/
def colKind (vals : List Val) : ColKind :=
  if !vals.isEmpty && vals.all isNumOrMissing then .numeric
  else if vals.any isDateV && vals.all isDateOrMissing then .datetime
  else .object

/-- The numeric entries of a column (NaN and non-numeric cells skipped). -/
def numVals (vals : List Val) : List Frac :=
  vals.filterMap (fun v => match v with | .num q => some q | _ => none)

def insertSorted (q : Frac) : List Frac → List Frac
  | [] => [q]
  | x :: xs => if q.le x then q :: x :: xs else x :: insertSorted q xs

/-- Ascending insertion sort of the values. -/
def sortQ (l : List Frac) : List Frac := l.foldr insertSorted []

/-- Pandas `Series.median()`: middle of the sorted values, or the mean of the two
middle values; `None` for an empty series (pandas returns NaN, which makes the
subsequent `fillna` a no-op). -/
def medianQ (l : List Frac) : Option Frac :=
  let s := sortQ l
  let n := s.length
  if n = 0 then none
  else if n % 2 = 1 then some (s.getD (n / 2) (fq 0))
  else some (((s.getD (n / 2 - 1) (fq 0)).add (s.getD (n / 2) (fq 0))).div (fq 2))

/-- Pandas `Series.quantile(q)` with the default linear interpolation: at position
`q*(n-1)` in the sorted values, interpolating between the two neighbouring
order statistics.  `q*(n-1)` is nonnegative here, so its floor is
`num / den`. -/
def quantileQ (q : Frac) (l : List Frac) : Option Frac :=
  match sortQ l with
  | [] => none
  | x :: xs =>
    let pos : Frac := q.mul (fq (Int.ofNat xs.length))
    let i : Nat := pos.num.toNat / pos.den
    let frac : Frac := pos.sub (fq (Int.ofNat i))
    let xi := (x :: xs).getD i x
    let xi1 := (x :: xs).getD (i + 1) xi
    some (xi.add (frac.mul (xi1.sub xi)))

/-- The non-missing entries of a column (`mode()` drops NaN). -/
def nonMissing (vals : List Val) : List Val :=
  vals.filter (fun v => decide (v ≠ Val.missing))

/-- The largest multiplicity occurring in the list. -/
def maxCount (l : List Val) : Nat := (l.map (fun v => l.count v)).foldr max 0

/-- Tier order used to mirror how pandas sorts the tied modes before `[0]`
picks the first: numbers, then strings (code-point lexicographic, as Python
compares), then timestamps, then missing. -/
def charListLe : List Char → List Char → Bool
  | [], _ => true
  | _ :: _, [] => false
  | a :: as, b :: bs => if a < b then true else if b < a then false else charListLe as bs

def strLe (a b : String) : Bool := charListLe a.data b.data

def valLe (a b : Val) : Bool :=
  match a, b with
  | .num p, .num q => p.le q
  | .num _, _ => true
  | .str _, .num _ => false
  | .str s, .str t => strLe s t
  | .str _, _ => true
  | .dateVal _, .num _ => false
  | .dateVal _, .str _ => false
  | .dateVal s, .dateVal t => strLe s t
  | .dateVal _, .missing => true
  | .missing, .missing => true
  | .missing, _ => false

/-- Least element of a list under `le` (requires `le` total and transitive to
be the minimum). -/
def pickMin (le : Val → Val → Bool) : List Val → Option Val
  | [] => none
  | v :: vs =>
    match pickMin le vs with
    | none => some v
    | some w => if le v w then some v else some w

/-- Pandas `Series.mode()[0]`: among the non-missing values of maximal multiplicity,
the least in sorted order (pandas sorts the modes; `[0]` takes the first).
`none` when every value is missing — there `mode()[0]` raises. -/
def modeVal (vals : List Val) : Option Val :=
  let nm := nonMissing vals
  pickMin valLe (nm.filter (fun v => decide (nm.count v = maxCount nm)))

/-- Lines 54-60: normalize every column name. -/
def normalizeCols (t : Table) : Table := { t with cols := t.cols.map normName }

/-- Lines 67-68: rename the `value_` column to `total_sales_value`. -/
def renameValueCol (t : Table) : Table :=
  if "value_" ∈ t.cols then
    { t with cols := t.cols.map (fun c => if c = "value_" then "total_sales_value" else c) }
  else t

/-- Line 69: `dropna(subset=['sales_person', 'total_sales_value'])`; a missing
subset column raises KeyError. -/
def dropRequired (t : Table) : Except SchemaError Table :=
  match colIdx "sales_person" t.cols, colIdx "total_sales_value" t.cols with
  | some i, some j =>
      .ok { t with rows := t.rows.filter (fun r =>
              decide (getCell r i ≠ Val.missing) && decide (getCell r j ≠ Val.missing)) }
  | none, _ => .error (.missingColumn "sales_person")
  | some _, none => .error (.missingColumn "total_sales_value")

/-- Lines 77-78 for one numeric column: fill its missing entries with its
median (a NaN median — empty column — fills nothing). -/
def imputeNumericCol (t : Table) (i : Nat) : Table :=
  match medianQ (numVals (colVals t i)) with
  | none => t
  | some m =>
      { t with rows := t.rows.map (fun r =>
          if getCell r i = Val.missing then setCell r i (.num m) else r) }

def imputeNumericAux (ks : List ColKind) : Table → List Nat → Table
  | t, [] => t
  | t, i :: is =>
      imputeNumericAux ks (if ks.getD i .object = .numeric then imputeNumericCol t i else t) is

/-- Lines 77-78: median-impute every numeric-dtype column. -/
def imputeNumeric (t : Table) (ks : List ColKind) : Table :=
  imputeNumericAux ks t (List.range t.cols.length)

/-- Lines 86-88 for one object column: `fillna(mode()[0])`; `mode()[0]` is
evaluated unconditionally and raises when the column is entirely missing. -/
def imputeCatCol (t : Table) (i : Nat) : Except SchemaError Table :=
  match modeVal (colVals t i) with
  | none => .error (.emptyMode (t.cols.getD i ""))
  | some m =>
      .ok { t with rows := t.rows.map (fun r =>
             if getCell r i = Val.missing then setCell r i m else r) }

def imputeCategoricalAux : Table → List ColKind → List Nat → Except SchemaError Table
  | t, _, [] => .ok t
  | t, ks, i :: is => do
      let t' ← if ks.getD i .object = .object then imputeCatCol t i else .ok t
      imputeCategoricalAux t' ks is

/-- Lines 86-88: mode-impute every object-dtype column, in column order. -/
def imputeCategorical (t : Table) (ks : List ColKind) : Except SchemaError Table :=
  imputeCategoricalAux t ks (List.range t.cols.length)

/-- A parseable raw date string in our model: `YYYY-MM-DD` with all digits. -/
def isDateString (s : String) : Bool :=
  match s.data with
  | [y1, y2, y3, y4, c1, m1, m2, c2, d1, d2] =>
    y1.isDigit && y2.isDigit && y3.isDigit && y4.isDigit &&
    (c1 == '-') && m1.isDigit && m2.isDigit && (c2 == '-') && d1.isDigit && d2.isDigit
  | _ => false

/-- Whether `pd.to_datetime(v, errors='coerce')` yields an actual timestamp
(numbers parse as epoch offsets; NaN and unparseable strings give NaT). -/
def dateParsable : Val → Bool
  | .str s => isDateString s
  | .dateVal _ => true
  | .num _ => true
  | .missing => false

/-- One cell of line 95: coerce to a timestamp or to NaT. -/
def dateParse : Val → Val
  | .str s => if isDateString s then .dateVal s else .missing
  | .dateVal s => .dateVal s
  | .num q => .dateVal ("epoch:" ++ toString q.num ++ "_" ++ toString q.den)
  | .missing => .missing

/-- Line 95: `df['date'] = pd.to_datetime(df['date'], errors='coerce')`;
a missing `date` column raises KeyError. -/
def parseDates (t : Table) : Except SchemaError Table :=
  match colIdx "date" t.cols with
  | none => .error (.missingColumn "date")
  | some i =>
      .ok { t with rows := t.rows.map (fun r => setCell r i (dateParse (getCell r i))) }

/-- The fixed ordinal priority dictionary of line 102, in insertion order. -/
def priorityKeys : List String := ["Low", "Medium", "High", "Critical"]

def priorityMapQ (s : String) : Option Frac :=
  if s = "Low" then some (fq 1)
  else if s = "Medium" then some (fq 2)
  else if s = "High" then some (fq 3)
  else if s = "Critical" then some (fq 4)
  else none

/-- One cell of line 104: the `.str` accessor maps non-string cells to NaN,
string cells through capitalize-then-strip. -/
def prioNormV : Val → Val
  | .str s => .str (capStrip s)
  | _ => .missing

/-- The `priority_numeric` cell produced by `.map(priority_map)` (line 106):
unmatched values become NaN. -/
def pnVal (v : Val) : Val :=
  match v with
  | .str s => match priorityMapQ s with | some n => .num n | none => .missing
  | _ => .missing

/-- The row predicate of the priority filter (line 105). -/
def prioKeep (i : Nat) (r : List Val) : Bool :=
  match getCell r i with
  | .str s => decide (s ∈ priorityKeys)
  | _ => false

/-- The pure part of lines 104-106: normalize the priority strings in place,
keep only rows whose priority is one of the four keys, and attach
`priority_numeric` (overwriting the column when it already exists, appending
it otherwise). -/
def priorityCore (t : Table) (i : Nat) : Table :=
  let valid := (t.rows.map (fun r => setCell r i (prioNormV (getCell r i)))).filter (prioKeep i)
  match colIdx "priority_numeric" t.cols with
  | some j =>
      { cols := t.cols, rows := valid.map (fun r => setCell r j (pnVal (getCell r i))) }
  | none =>
      { cols := t.cols ++ ["priority_numeric"],
        rows := valid.map (fun r => padTo t.cols.length r ++ [pnVal (getCell r i)]) }

/-- Lines 102-106; a missing `priority` column raises KeyError and `.str` on
a non-object column raises AttributeError. -/
def priorityStep (t : Table) (ks : List ColKind) : Except SchemaError Table :=
  match colIdx "priority" t.cols with
  | none => .error (.missingColumn "priority")
  | some i =>
    if ks.getD i .object ≠ .object then .error (.notStringColumn "priority")
    else .ok (priorityCore t i)

def dedupAux (seen : List (List Val)) : List (List Val) → List (List Val)
  | [] => []
  | r :: rs => if r ∈ seen then dedupAux seen rs else r :: dedupAux (r :: seen) rs

/-- Line 111: `drop_duplicates()` over all columns, keeping the first
occurrence. -/
def dedupTable (t : Table) : Table := { t with rows := dedupAux [] t.rows }

/-- The `total_sales_value` numbers of a table. -/
def tsvVals (t : Table) : List Frac :=
  match colIdx "total_sales_value" t.cols with
  | none => []
  | some j => numVals (colVals t j)

/-- Lines 120-125: Q1, Q3 and the derived interval
`[Q1 - 1.5*IQR, Q3 + 1.5*IQR]` on `total_sales_value` of the table as it
stands; `none` when the quantiles are NaN (empty table). -/
def iqrBounds (t : Table) : Option (Frac × Frac) :=
  match quantileQ ⟨1, 4⟩ (tsvVals t), quantileQ ⟨3, 4⟩ (tsvVals t) with
  | some q1, some q3 =>
      some (q1.sub ((⟨3, 2⟩ : Frac).mul (q3.sub q1)), q3.add ((⟨3, 2⟩ : Frac).mul (q3.sub q1)))
  | _, _ => none

/-- The row predicate of lines 127-129. -/
def iqrKeep (j : Nat) (lb ub : Frac) (r : List Val) : Bool :=
  match getCell r j with
  | .num q => lb.le q && q.le ub
  | _ => false

/-- Lines 120-129: drop the rows outside the IQR interval (NaN bounds of an
empty table make every comparison false). -/
def iqrStep (t : Table) : Table :=
  match colIdx "total_sales_value" t.cols with
  | none => t
  | some j =>
    match iqrBounds t with
    | some (lb, ub) => { t with rows := t.rows.filter (iqrKeep j lb ub) }
    | none => { t with rows := [] }

/-- The table after column normalization and the `value_` rename. -/
def stage1 (t : Table) : Table := renameValueCol (normalizeCols t)

/-- The dtype classification of every column, fixed at load time. -/
def stageKinds (t : Table) : List ColKind :=
  (List.range (stage1 t).cols.length).map (fun i => colKind (colVals (stage1 t) i))

def preOutlier (t0 : Table) : Except SchemaError Table :=
  (dropRequired (stage1 t0)).bind (fun t2 =>
    (imputeCategorical (imputeNumeric t2 (stageKinds t0)) (stageKinds t0)).bind (fun t4 =>
      (parseDates t4).bind (fun t5 =>
        (priorityStep t5 (stageKinds t0)).map dedupTable)))

/-- The whole cleaning pipeline: steps 1-7 followed by the IQR outlier
filter. -/
def clean (t : Table) : Except SchemaError Table := (preOutlier t).map iqrStep

/-- The descriptive aggregates the script prints after cleaning (a
representative slice of `describe()`): row count and mean of
`total_sales_value`. -/
structure Stats where
  rowCount : Nat
  meanSales : Option Frac
deriving DecidableEq

def statsOf (t : Table) : Stats :=
  let vs := tsvVals t
  { rowCount := t.rows.length,
    meanSales := if vs.isEmpty then none
                 else some ((vs.foldr Frac.add (fq 0)).div (fq (Int.ofNat vs.length))) }

/-- Statistics are only reached when cleaning succeeded: the script raises out
of the cleaning section otherwise. -/
def analysis (t : Table) : Except SchemaError Stats := (clean t).map statsOf

/-- Lines 131-135: the cleaning diagnostics the script prints — the column
names of `df` (unchanged after line 68) and the shape of `df_valid`. -/
structure CleanReport where
  dfColumns : List String
  finalShape : Nat × Nat
deriving DecidableEq

def reportOf (t : Table) : Except SchemaError CleanReport :=
  (clean t).map (fun c =>
    { dfColumns := (renameValueCol (normalizeCols t)).cols,
      finalShape := (c.rows.length, c.cols.length) })

/-- The number of rows removed by the required-field `dropna` of line 69. -/
def droppedRequired (t : Table) : Nat :=
  let t1 := renameValueCol (normalizeCols t)
  match dropRequired t1 with
  | .ok t2 => t1.rows.length - t2.rows.length
  | .error _ => 0

/-
Well-formedness: every row of a real data frame has exactly one cell per
column.  `read_csv` only produces rectangular frames, and every pipeline step
preserves rectangularity.
-/

/-- Rows are rectangular. -/
def WFtable (t : Table) : Prop := ∀ r ∈ t.rows, r.length = t.cols.length

/-- A row transformation that keeps row length and never changes a
non-missing cell. -/
def CellKeeper (F : List Val → List Val) : Prop :=
  ∀ r, (F r).length = r.length ∧
    ∀ k, getCell r k ≠ Val.missing → getCell (F r) k = getCell r k

/-- The per-row function of the median fill of one column. -/
def numFillFun (i : Nat) (m : Frac) (r : List Val) : List Val :=
  if getCell r i = Val.missing then setCell r i (.num m) else r

/-- The per-row function of the mode fill of one column. -/
def catFillFun (i : Nat) (m : Val) (r : List Val) : List Val :=
  if getCell r i = Val.missing then setCell r i m else r


/-
Concrete tables used to instantiate and to refute the specified properties.
-/

/-- The spec scenario: two identical Alice rows and a Bob row whose
`total_sales_value` is missing. -/
def scenarioTable : Table :=
  { cols := ["sales_person", "total_sales_value", "priority", "date"],
    rows := [[.str "Alice", .num (fq 100), .str "Low", .str "2024-01-01"],
             [.str "Bob", .missing, .str "High", .str "2024-01-02"],
             [.str "Alice", .num (fq 100), .str "Low", .str "2024-01-01"]] }

/-- What the pipeline actually produces on `scenarioTable`. -/
def scenarioCleaned : Table :=
  { cols := ["sales_person", "total_sales_value", "priority", "date", "priority_numeric"],
    rows := [[.str "Alice", .num (fq 100), .str "Low", .dateVal "2024-01-01", .num (fq 1)]] }

/-- A one-row probe table whose priority field is the given string. -/
def prioProbe (p : String) : Table :=
  { cols := ["sales_person", "total_sales_value", "priority", "date"],
    rows := [[.str "A", .num (fq 100), .str p, .str "2024-01-01"]] }

def probeCols : List String :=
  ["sales_person", "total_sales_value", "priority", "date", "priority_numeric"]

/-- The cleaned probe when the priority is kept as `s` with numeric `qv`. -/
def probeKept (s : String) (qv : Frac) : Table :=
  { cols := probeCols,
    rows := [[.str "A", .num (fq 100), .str s, .dateVal "2024-01-01", .num qv]] }

/-- The cleaned probe when the row is rejected. -/
def probeEmpty : Table := { cols := probeCols, rows := [] }

/-- The dtype kinds of the probe table's columns. -/
def probeKinds : List ColKind := [.object, .numeric, .object, .object]

/-- The probe row after the date has been parsed, before the priority step. -/
def probeParsed (s : String) : Table :=
  { cols := ["sales_person", "total_sales_value", "priority", "date"],
    rows := [[.str "A", .num (fq 100), .str s, .dateVal "2024-01-01"]] }

/-- The probe row after the priority transform of line 104. -/
def keptRow4 (s : String) : List Val :=
  [.str "A", .num (fq 100), .str s, .dateVal "2024-01-01"]

/-- The retained probe row with its `priority_numeric` cell attached. -/
def keptRow5 (s : String) : List Val :=
  [.str "A", .num (fq 100), .str s, .dateVal "2024-01-01", pnVal (.str s)]

def probeKeptV (s : String) : Table := { cols := probeCols, rows := [keptRow5 s] }

/-- Lowercase a string after stripping surrounding whitespace (used to state
"equal up to letter case and surrounding whitespace"). -/
def lowerTrim (s : String) : String := String.mk ((trimChars s.data).map Char.toLower)

/-- Six distinct rows on which the recomputed IQR bounds of the cleaned
output are strictly tighter, so a second cleaning run drops another row. -/
def iqrRerunTable : Table :=
  { cols := ["sales_person", "total_sales_value", "priority", "date"],
    rows := [[.str "A", .num (fq 1), .str "Low", .str "2024-01-01"],
             [.str "B", .num (fq 1), .str "Low", .str "2024-01-01"],
             [.str "C", .num (fq 1), .str "Low", .str "2024-01-01"],
             [.str "D", .num (fq 1), .str "Low", .str "2024-01-01"],
             [.str "E", .num (fq 10), .str "Low", .str "2024-01-01"],
             [.str "F", .num (fq 1000), .str "Low", .str "2024-01-01"]] }

/-- A table whose object-dtype `region` column becomes entirely missing after
the required-field drop, so `mode()[0]` raises. -/
def allMissingCatTable : Table :=
  { cols := ["sales_person", "total_sales_value", "region", "priority", "date"],
    rows := [[.missing, .num (fq 5), .str "North", .str "Low", .str "2024-01-01"],
             [.str "A", .num (fq 10), .missing, .str "Low", .str "2024-01-02"]] }

/-- One fully-valid row: nothing is dropped. -/
def reportTableA : Table :=
  { cols := ["sales_person", "total_sales_value", "priority", "date"],
    rows := [[.str "A", .num (fq 100), .str "Low", .str "2024-01-01"]] }

/-- The same plus a row whose `total_sales_value` is missing: one row is
dropped by the required-field rule, yet the printed diagnostics coincide with
those of `reportTableA`. -/
def reportTableB : Table :=
  { cols := ["sales_person", "total_sales_value", "priority", "date"],
    rows := [[.str "A", .num (fq 100), .str "Low", .str "2024-01-01"],
             [.str "B", .missing, .str "Low", .str "2024-01-01"]] }

/-- A column with a two-way tie between "a" and "b" for the mode. -/
def tieList : List Val := [.str "b", .str "a", .str "b", .str "a"]

/-- A header-only raw table with zero rows. -/
def emptyRawTable : Table :=
  { cols := ["sales_person", "total_sales_value", "priority", "date"], rows := [] }

/-- Two rows, one missing numeric cell: the median fill changes exactly it. -/
def frameTable : Table :=
  { cols := ["region", "amount"],
    rows := [[.str "x", .missing], [.str "x", .num (fq 5)]] }

def frameKinds : List ColKind := [.object, .numeric]

/-- The table `frameTable` after both imputation passes. -/
def frameFilled : Table :=
  { cols := ["region", "amount"],
    rows := [[.str "x", .num (fq 5)], [.str "x", .num (fq 5)]] }

/-- One missing cell and one "y": the mode fill writes "y" into row 0. -/
def catFillTable : Table := { cols := ["region"], rows := [[.missing], [.str "y"]] }

def catFillFilled : Table := { cols := ["region"], rows := [[.str "y"], [.str "y"]] }

/-- A single parseable date cell. -/
def dateTable : Table := { cols := ["date"], rows := [[.str "2024-01-01"]] }

def dateParsed : Table := { cols := ["date"], rows := [[.dateVal "2024-01-01"]] }

/-- One column's imputation-stability condition: an object column has no
missing entry, a numeric column has none or is entirely missing (its median
is NaN and fills nothing), a datetime column is skipped by both passes. -/
def colStable (t : Table) (i : Nat) : Bool :=
  match colKind (colVals t i) with
  | .numeric => decide (¬ Val.missing ∈ colVals t i) ||
      (colVals t i).all (fun v => decide (v = Val.missing))
  | .datetime => true
  | .object => decide (¬ Val.missing ∈ colVals t i)

/-- One row of an already-clean table: rectangular, required fields present,
priority in the ordinal set with its numeric twin attached, date parsed. -/
def rowClean (cols : List String) (iSp iT iPr iPn iD : Nat) (r : List Val) : Bool :=
  decide (r.length = cols.length) &&
  decide (getCell r iSp ≠ Val.missing) &&
  decide (getCell r iT ≠ Val.missing) &&
  (match getCell r iPr with
   | .str s => decide (s ∈ priorityKeys)
   | _ => false) &&
  decide (getCell r iPn = pnVal (getCell r iPr)) &&
  isDateOrMissing (getCell r iD)

/-- An already-clean, nonempty table, as the data model of section 3
guarantees for the cleaner's output: normalized column names including
`priority_numeric`, no `value_` column, stable columns, clean rows, and no
duplicate rows. -/
def isCleanB (t : Table) : Bool :=
  match colIdx "sales_person" t.cols, colIdx "total_sales_value" t.cols,
      colIdx "priority" t.cols, colIdx "priority_numeric" t.cols,
      colIdx "date" t.cols with
  | some iSp, some iT, some iPr, some iPn, some iD =>
    decide (t.cols.map normName = t.cols) &&
    decide ("value_" ∉ t.cols) &&
    decide (t.rows ≠ []) &&
    t.rows.all (rowClean t.cols iSp iT iPr iPn iD) &&
    (List.range t.cols.length).all (colStable t) &&
    decide t.rows.Nodup
  | _, _, _, _, _ => false

/-
Basic lemmas about cells, rows and column lookup.
-/

theorem getCell_setCell_ne (r : List Val) (i k : Nat) (v : Val) (h : i ≠ k) :
    getCell (setCell r i v) k = getCell r k := by
  unfold getCell setCell
  induction r generalizing i k with
  | nil => simp
  | cons a as ih =>
    cases i with
    | zero => cases k with
      | zero => exact absurd rfl h
      | succ k' => simp [List.set]
    | succ i' => cases k with
      | zero => simp [List.set]
      | succ k' =>
        simp only [List.set, List.getD_cons_succ]
        exact ih i' k' (fun hh => h (by rw [hh]))

theorem getCell_setCell_self (r : List Val) (i : Nat) (v : Val) (h : i < r.length) :
    getCell (setCell r i v) i = v := by
  unfold getCell setCell
  induction r generalizing i with
  | nil => simp at h
  | cons a as ih =>
    cases i with
    | zero => simp [List.set]
    | succ i' =>
      simp only [List.set, List.getD_cons_succ]
      exact ih i' (Nat.lt_of_succ_lt_succ h)

theorem setCell_getCell_self (r : List Val) (i : Nat) :
    setCell r i (getCell r i) = r := by
  unfold getCell setCell
  induction r generalizing i with
  | nil => simp
  | cons a as ih =>
    cases i with
    | zero => simp [List.set]
    | succ i' => simp only [List.set, List.getD_cons_succ]; rw [ih]

theorem setCell_length (r : List Val) (i : Nat) (v : Val) :
    (setCell r i v).length = r.length := by
  unfold setCell; exact List.length_set r i v

theorem padTo_length (n : Nat) (r : List Val) : (padTo n r).length = n := by
  unfold padTo
  rw [List.length_append, List.length_take, List.length_replicate]
  omega

theorem getD_append_lt (l l' : List Val) (d : Val) :
    ∀ k, k < l.length → (l ++ l').getD k d = l.getD k d := by
  induction l with
  | nil => intro k hk; simp at hk
  | cons a as ih =>
    intro k hk
    cases k with
    | zero => rfl
    | succ k' =>
      simp only [List.cons_append, List.getD_cons_succ]
      exact ih k' (Nat.lt_of_succ_lt_succ hk)

theorem getD_append_ge (l l' : List Val) (d : Val) :
    ∀ k, l.length ≤ k → (l ++ l').getD k d = l'.getD (k - l.length) d := by
  induction l with
  | nil => intro k _; simp
  | cons a as ih =>
    intro k hk
    cases k with
    | zero => simp at hk
    | succ k' =>
      simp only [List.cons_append, List.getD_cons_succ, List.length_cons]
      rw [ih k' (Nat.le_of_succ_le_succ hk), Nat.succ_sub_succ]

theorem getD_replicate_self (m k : Nat) (d : Val) : (List.replicate m d).getD k d = d := by
  induction m generalizing k with
  | zero => rfl
  | succ m' ih =>
    cases k with
    | zero => rfl
    | succ k' => simp only [List.replicate, List.getD_cons_succ]; exact ih k'

theorem getD_take_lt (r : List Val) (d : Val) :
    ∀ n k, k < n → (r.take n).getD k d = r.getD k d := by
  induction r with
  | nil => intro n k _; simp
  | cons a as ih =>
    intro n k hk
    cases n with
    | zero => simp at hk
    | succ n' =>
      cases k with
      | zero => rfl
      | succ k' =>
        simp only [List.take, List.getD_cons_succ]
        exact ih n' k' (Nat.lt_of_succ_lt_succ hk)

theorem getD_ge_length (l : List Val) (d : Val) : ∀ k, l.length ≤ k → l.getD k d = d := by
  induction l with
  | nil => intro k _; rfl
  | cons a as ih =>
    intro k hk
    cases k with
    | zero => simp at hk
    | succ k' =>
      simp only [List.getD_cons_succ]
      exact ih k' (Nat.le_of_succ_le_succ hk)

theorem getCell_padTo (n : Nat) (r : List Val) (k : Nat) (h : k < n) :
    getCell (padTo n r) k = getCell r k := by
  unfold padTo getCell
  by_cases hk : k < r.length
  · rw [getD_append_lt]
    · exact getD_take_lt r Val.missing n k h
    · rw [List.length_take]; omega
  · have hge : r.length ≤ k := Nat.le_of_not_lt hk
    rw [getD_append_ge, getD_replicate_self, getD_ge_length r Val.missing k hge]
    rw [List.length_take]; omega

theorem getCell_append_left (l l' : List Val) (k : Nat) (h : k < l.length) :
    getCell (l ++ l') k = getCell l k := getD_append_lt l l' Val.missing k h

theorem getCell_append_at (l : List Val) (v : Val) (n : Nat) (h : l.length = n) :
    getCell (l ++ [v]) n = v := by
  unfold getCell
  subst h
  rw [getD_append_ge l [v] Val.missing l.length (Nat.le_refl _), Nat.sub_self]
  rfl

theorem colIdx_getD (c : String) (l : List String) (i : Nat) (h : colIdx c l = some i) :
    l.getD i "" = c := by
  induction l generalizing i with
  | nil => simp [colIdx] at h
  | cons x xs ih =>
    by_cases hx : x = c
    · simp only [colIdx, if_pos hx] at h
      cases h
      rw [List.getD_cons_zero]
      exact hx
    · simp only [colIdx, if_neg hx] at h
      cases hi : colIdx c xs with
      | none => rw [hi] at h; simp at h
      | some i' =>
        rw [hi] at h
        replace h : some (i' + 1) = some i := h
        cases h
        rw [List.getD_cons_succ]
        exact ih i' hi

theorem colIdx_lt_length (c : String) (l : List String) (i : Nat) (h : colIdx c l = some i) :
    i < l.length := by
  induction l generalizing i with
  | nil => simp [colIdx] at h
  | cons x xs ih =>
    by_cases hx : x = c
    · simp only [colIdx, if_pos hx] at h
      cases h
      simp
    · simp only [colIdx, if_neg hx] at h
      cases hi : colIdx c xs with
      | none => rw [hi] at h; simp at h
      | some i' =>
        rw [hi] at h
        replace h : some (i' + 1) = some i := h
        cases h
        have := ih i' hi
        simp only [List.length_cons]
        omega

theorem colIdx_ne_of_ne (c d : String) (l : List String) (i j : Nat)
    (hc : colIdx c l = some i) (hd : colIdx d l = some j) (h : c ≠ d) : i ≠ j := by
  intro he
  apply h
  rw [← colIdx_getD c l i hc, ← colIdx_getD d l j hd, he]

theorem colIdx_append_of_some (c : String) (l l' : List String) (i : Nat)
    (h : colIdx c l = some i) : colIdx c (l ++ l') = some i := by
  induction l generalizing i with
  | nil => simp [colIdx] at h
  | cons x xs ih =>
    rw [List.cons_append]
    by_cases hx : x = c
    · simp only [colIdx, if_pos hx] at h ⊢
      exact h
    · simp only [colIdx, if_neg hx] at h ⊢
      cases hi : colIdx c xs with
      | none => rw [hi] at h; simp at h
      | some i' =>
        rw [hi] at h
        rw [ih i' hi]
        exact h

theorem colIdx_append_self (c : String) (l : List String) (h : colIdx c l = none) :
    colIdx c (l ++ [c]) = some l.length := by
  induction l with
  | nil => simp [colIdx]
  | cons x xs ih =>
    rw [List.cons_append]
    by_cases hx : x = c
    · simp only [colIdx, if_pos hx] at h
      simp at h
    · simp only [colIdx, if_neg hx] at h ⊢
      cases hi : colIdx c xs with
      | none => rw [ih hi]; simp
      | some i' => rw [hi] at h; simp at h

theorem map_eq_self_of_mem {α : Type} (l : List α) (f : α → α) (h : ∀ a ∈ l, f a = a) :
    l.map f = l := by
  induction l with
  | nil => rfl
  | cons x xs ih =>
    simp only [List.map_cons]
    rw [h x (by simp), ih (fun a ha => h a (by simp [ha]))]

/-
The tie-breaking order on values and the mode function.
-/

theorem charListLe_refl (l : List Char) : charListLe l l = true := by
  induction l with
  | nil => rfl
  | cons a as ih => simp [charListLe, ih]

theorem charListLe_total (a b : List Char) : charListLe a b = true ∨ charListLe b a = true := by
  induction a generalizing b with
  | nil => left; rfl
  | cons x xs ih =>
    cases b with
    | nil => right; rfl
    | cons y ys =>
      rcases lt_trichotomy x y with hxy | hxy | hxy
      · left; simp [charListLe, hxy]
      · subst hxy
        rcases ih ys with h | h
        · left; simp [charListLe, h]
        · right; simp [charListLe, h]
      · right; simp [charListLe, hxy]

theorem charListLe_trans (a b c : List Char) (h1 : charListLe a b = true)
    (h2 : charListLe b c = true) : charListLe a c = true := by
  induction a generalizing b c with
  | nil => rfl
  | cons x xs ih =>
    cases b with
    | nil => simp [charListLe] at h1
    | cons y ys =>
      cases c with
      | nil => simp [charListLe] at h2
      | cons z zs =>
        simp only [charListLe] at h1 h2 ⊢
        rcases lt_trichotomy x y with hxy | hxy | hxy
        · rcases lt_trichotomy y z with hyz | hyz | hyz
          · rw [if_pos (lt_trans hxy hyz)]
          · subst hyz; rw [if_pos hxy]
          · rw [if_neg (asymm hyz), if_pos hyz] at h2
            exact absurd h2 (by simp)
        · subst hxy
          rw [if_neg (lt_irrefl x), if_neg (lt_irrefl x)] at h1
          rcases lt_trichotomy x z with hyz | hyz | hyz
          · rw [if_pos hyz]
          · subst hyz
            rw [if_neg (lt_irrefl x), if_neg (lt_irrefl x)] at h2 ⊢
            exact ih ys zs h1 h2
          · rw [if_neg (asymm hyz), if_pos hyz] at h2
            exact absurd h2 (by simp)
        · rw [if_neg (asymm hxy), if_pos hxy] at h1
          exact absurd h1 (by simp)

theorem strLe_refl (s : String) : strLe s s = true := charListLe_refl s.data

theorem strLe_total (a b : String) : strLe a b = true ∨ strLe b a = true :=
  charListLe_total a.data b.data

theorem strLe_trans (a b c : String) (h1 : strLe a b = true) (h2 : strLe b c = true) :
    strLe a c = true := charListLe_trans a.data b.data c.data h1 h2

theorem fracLe_refl (a : Frac) : a.le a = true := by simp [Frac.le]

theorem fracLe_total (a b : Frac) : a.le b = true ∨ b.le a = true := by
  simp only [Frac.le, decide_eq_true_eq]
  exact le_total _ _

theorem posDen_pos (a : Frac) : 0 < a.posDen := by
  unfold Frac.posDen
  split
  · exact Int.ofNat_pos.mpr Nat.one_pos
  · rename_i h
    exact Int.ofNat_pos.mpr (Nat.pos_of_ne_zero h)

theorem fracLe_trans (a b c : Frac) (h1 : a.le b = true) (h2 : b.le c = true) :
    a.le c = true := by
  simp only [Frac.le, decide_eq_true_eq] at h1 h2 ⊢
  have hb := posDen_pos b
  have ha := posDen_pos a
  have hc := posDen_pos c
  have g3 : a.num * c.posDen * b.posDen ≤ c.num * a.posDen * b.posDen := by nlinarith
  exact le_of_mul_le_mul_right g3 hb

theorem valLe_refl (v : Val) : valLe v v = true := by
  cases v with
  | num q => simp [valLe, fracLe_refl]
  | str s => simp [valLe, strLe_refl]
  | dateVal s => simp [valLe, strLe_refl]
  | missing => rfl

theorem valLe_total (a b : Val) : valLe a b = true ∨ valLe b a = true := by
  cases a <;> cases b <;> simp [valLe] <;>
    first
      | exact fracLe_total _ _
      | exact strLe_total _ _

theorem valLe_trans (a b c : Val) (h1 : valLe a b = true) (h2 : valLe b c = true) :
    valLe a c = true := by
  cases a <;> cases b <;> cases c <;>
    simp [valLe] at h1 h2 ⊢ <;>
    first
      | exact fracLe_trans _ _ _ h1 h2
      | exact strLe_trans _ _ _ h1 h2

theorem pickMin_eq_none_iff (le : Val → Val → Bool) (l : List Val) :
    pickMin le l = none ↔ l = [] := by
  cases l with
  | nil => simp [pickMin]
  | cons v vs =>
    constructor
    · intro h
      exfalso
      simp only [pickMin] at h
      cases hm : pickMin le vs with
      | none => rw [hm] at h; exact Option.noConfusion h
      | some w =>
        rw [hm] at h
        replace h : (if le v w = true then some v else some w) = none := h
        by_cases hc : le v w = true
        · rw [if_pos hc] at h; exact Option.noConfusion h
        · rw [if_neg hc] at h; exact Option.noConfusion h
    · intro h; exact absurd h (by simp)

theorem pickMin_mem (le : Val → Val → Bool) (l : List Val) (w : Val)
    (h : pickMin le l = some w) : w ∈ l := by
  induction l generalizing w with
  | nil => simp [pickMin] at h
  | cons v vs ih =>
    simp only [pickMin] at h
    cases hm : pickMin le vs with
    | none =>
      rw [hm] at h
      cases h
      simp
    | some w' =>
      rw [hm] at h
      replace h : (if le v w' = true then some v else some w') = some w := h
      by_cases hc : le v w' = true
      · rw [if_pos hc] at h
        cases h
        simp
      · rw [if_neg hc] at h
        cases h
        exact List.mem_cons_of_mem v (ih _ hm)

theorem pickMin_least (l : List Val) (w : Val) (h : pickMin valLe l = some w) :
    ∀ v ∈ l, valLe w v = true := by
  induction l generalizing w with
  | nil => simp [pickMin] at h
  | cons v vs ih =>
    simp only [pickMin] at h
    cases hm : pickMin valLe vs with
    | none =>
      rw [hm] at h
      cases h
      have hvs : vs = [] := (pickMin_eq_none_iff valLe vs).mp hm
      subst hvs
      intro x hx
      rcases List.mem_singleton.mp hx with rfl
      exact valLe_refl _
    | some w' =>
      rw [hm] at h
      replace h : (if valLe v w' = true then some v else some w') = some w := h
      by_cases hc : valLe v w' = true
      · rw [if_pos hc] at h
        cases h
        intro x hx
        rcases List.mem_cons.mp hx with rfl | hx'
        · exact valLe_refl _
        · exact valLe_trans _ _ _ hc (ih _ hm x hx')
      · rw [if_neg hc] at h
        cases h
        intro x hx
        rcases List.mem_cons.mp hx with rfl | hx'
        · rcases valLe_total w x with hle | hge
          · exact hle
          · exact absurd hge hc
        · exact ih _ hm x hx'

theorem le_foldr_max (x : Nat) (xs : List Nat) (h : x ∈ xs) : x ≤ xs.foldr max 0 := by
  induction xs with
  | nil => simp at h
  | cons a as ih =>
    simp only [List.foldr]
    rcases List.mem_cons.mp h with rfl | h'
    · exact le_max_left _ _
    · exact le_trans (ih h') (le_max_right _ _)

theorem foldr_max_mem_or_zero (xs : List Nat) : xs.foldr max 0 ∈ xs ∨ xs.foldr max 0 = 0 := by
  induction xs with
  | nil => right; rfl
  | cons a as ih =>
    simp only [List.foldr]
    rcases le_total a (as.foldr max 0) with h | h
    · rw [max_eq_right h]
      rcases ih with hm | hz
      · left; exact List.mem_cons_of_mem _ hm
      · right; exact hz
    · rw [max_eq_left h]
      left
      simp

theorem count_le_maxCount (l : List Val) (v : Val) (h : v ∈ l) : l.count v ≤ maxCount l := by
  unfold maxCount
  exact le_foldr_max _ _ (List.mem_map_of_mem _ h)

theorem maxCount_attained (l : List Val) (h : l ≠ []) : ∃ v ∈ l, l.count v = maxCount l := by
  rcases foldr_max_mem_or_zero (l.map fun v => l.count v) with hm | hz
  · rcases List.mem_map.mp hm with ⟨v, hv, he⟩
    exact ⟨v, hv, he⟩
  · cases l with
    | nil => exact absurd rfl h
    | cons a as =>
      exfalso
      have h1 : (a :: as).count a ≤ maxCount (a :: as) := count_le_maxCount _ a (by simp)
      have h2 : 0 < (a :: as).count a := List.count_pos_iff.mpr (by simp)
      unfold maxCount at h1
      omega

theorem modeVal_eq_none_iff (vals : List Val) : modeVal vals = none ↔ nonMissing vals = [] := by
  unfold modeVal
  rw [pickMin_eq_none_iff]
  constructor
  · intro h
    by_contra hne
    rcases maxCount_attained (nonMissing vals) hne with ⟨v, hv, he⟩
    have hvin : v ∈ (nonMissing vals).filter
        (fun v => decide ((nonMissing vals).count v = maxCount (nonMissing vals))) :=
      List.mem_filter.mpr ⟨hv, by simp [he]⟩
    rw [h] at hvin
    simp at hvin
  · intro h
    rw [h]
    rfl

theorem modeVal_spec (vals : List Val) (m : Val) (h : modeVal vals = some m) :
    m ∈ nonMissing vals ∧
    (nonMissing vals).count m = maxCount (nonMissing vals) ∧
    ∀ v ∈ nonMissing vals,
      (nonMissing vals).count v = maxCount (nonMissing vals) → valLe m v = true := by
  unfold modeVal at h
  have hmem := pickMin_mem _ _ _ h
  have hle := pickMin_least _ _ h
  rcases List.mem_filter.mp hmem with ⟨h1, h2⟩
  refine ⟨h1, by simpa using h2, ?_⟩
  intro v hv hc
  exact hle v (List.mem_filter.mpr ⟨hv, by simp [hc]⟩)

theorem modeVal_isSome_of_ne (vals : List Val) (h : nonMissing vals ≠ []) :
    ∃ m, modeVal vals = some m := by
  cases hm : modeVal vals with
  | none => exact absurd ((modeVal_eq_none_iff vals).mp hm) h
  | some m => exact ⟨m, rfl⟩

theorem modeVal_singleton (v : Val) (h : v ≠ Val.missing) : modeVal [v] = some v := by
  have h1 : nonMissing [v] = [v] := by simp [nonMissing, h]
  simp only [modeVal]
  rw [h1]
  have h2 : [v].count v = maxCount [v] := by simp [maxCount, List.count_cons]
  simp [List.filter_cons, h2, pickMin, maxCount, List.count_cons]

/-
Shape lemmas: every middle stage of the pipeline maps its rows elementwise
and keeps non-missing cells intact.
-/

theorem cellKeeper_id : CellKeeper id := fun _ => ⟨rfl, fun _ _ => rfl⟩

theorem cellKeeper_comp (F G : List Val → List Val) (hF : CellKeeper F) (hG : CellKeeper G) :
    CellKeeper (G ∘ F) := by
  intro r
  refine ⟨by rw [Function.comp_apply, (hG (F r)).1, (hF r).1], ?_⟩
  intro k hk
  rw [Function.comp_apply, (hG (F r)).2 k (by rw [(hF r).2 k hk]; exact hk), (hF r).2 k hk]

theorem cellKeeper_numFill (i : Nat) (m : Frac) : CellKeeper (numFillFun i m) := by
  intro r
  unfold numFillFun
  by_cases hm : getCell r i = Val.missing
  · rw [if_pos hm]
    refine ⟨setCell_length r i _, ?_⟩
    intro k hk
    have hik : i ≠ k := fun he => hk (by rw [← he]; exact hm)
    exact getCell_setCell_ne r i k _ hik
  · rw [if_neg hm]
    exact ⟨rfl, fun _ _ => rfl⟩

theorem cellKeeper_catFill (i : Nat) (m : Val) : CellKeeper (catFillFun i m) := by
  intro r
  unfold catFillFun
  by_cases hm : getCell r i = Val.missing
  · rw [if_pos hm]
    refine ⟨setCell_length r i _, ?_⟩
    intro k hk
    have hik : i ≠ k := fun he => hk (by rw [← he]; exact hm)
    exact getCell_setCell_ne r i k _ hik
  · rw [if_neg hm]
    exact ⟨rfl, fun _ _ => rfl⟩

theorem imputeNumericCol_mapped (t : Table) (i : Nat) :
    (imputeNumericCol t i).cols = t.cols ∧
    ∃ F, CellKeeper F ∧ (imputeNumericCol t i).rows = t.rows.map F := by
  unfold imputeNumericCol
  cases medianQ (numVals (colVals t i)) with
  | none => exact ⟨rfl, id, cellKeeper_id, by simp⟩
  | some m => exact ⟨rfl, numFillFun i m, cellKeeper_numFill i m, rfl⟩

theorem imputeNumericAux_mapped (ks : List ColKind) (l : List Nat) (t : Table) :
    (imputeNumericAux ks t l).cols = t.cols ∧
    ∃ F, CellKeeper F ∧ (imputeNumericAux ks t l).rows = t.rows.map F := by
  induction l generalizing t with
  | nil =>
    refine ⟨rfl, id, cellKeeper_id, ?_⟩
    rw [List.map_id]
    rfl
  | cons i is ih =>
    simp only [imputeNumericAux]
    by_cases hk : ks.getD i .object = .numeric
    · rw [if_pos hk]
      rcases ih (imputeNumericCol t i) with ⟨hc, F, hF, hr⟩
      rcases imputeNumericCol_mapped t i with ⟨hc', F', hF', hr'⟩
      refine ⟨by rw [hc, hc'], F ∘ F', cellKeeper_comp F' F hF' hF, ?_⟩
      rw [hr, hr']
      rw [List.map_map]
    · rw [if_neg hk]
      exact ih t

theorem imputeNumeric_mapped (t : Table) (ks : List ColKind) :
    (imputeNumeric t ks).cols = t.cols ∧
    ∃ F, CellKeeper F ∧ (imputeNumeric t ks).rows = t.rows.map F :=
  imputeNumericAux_mapped ks (List.range t.cols.length) t

theorem imputeCatCol_mapped (t u : Table) (i : Nat) (h : imputeCatCol t i = .ok u) :
    u.cols = t.cols ∧ ∃ F, CellKeeper F ∧ u.rows = t.rows.map F := by
  unfold imputeCatCol at h
  cases hm : modeVal (colVals t i) with
  | none => rw [hm] at h; exact Except.noConfusion h
  | some m =>
    rw [hm] at h
    replace h : Except.ok (ε := SchemaError)
        { t with rows := t.rows.map (catFillFun i m) } = Except.ok u := h
    cases h
    exact ⟨rfl, catFillFun i m, cellKeeper_catFill i m, rfl⟩

theorem imputeCategoricalAux_mapped (ks : List ColKind) (l : List Nat) (t u : Table)
    (h : imputeCategoricalAux t ks l = .ok u) :
    u.cols = t.cols ∧ ∃ F, CellKeeper F ∧ u.rows = t.rows.map F := by
  induction l generalizing t with
  | nil =>
    simp only [imputeCategoricalAux] at h
    cases h
    refine ⟨rfl, id, cellKeeper_id, ?_⟩
    rw [List.map_id]
  | cons i is ih =>
    simp only [imputeCategoricalAux] at h
    by_cases hk : ks.getD i .object = .object
    · rw [if_pos hk] at h
      cases hstep : imputeCatCol t i with
      | error e => rw [hstep] at h; exact Except.noConfusion h
      | ok t' =>
        rw [hstep] at h
        replace h : imputeCategoricalAux t' ks is = .ok u := h
        rcases ih t' h with ⟨hc, F, hF, hr⟩
        rcases imputeCatCol_mapped t t' i hstep with ⟨hc', F', hF', hr'⟩
        refine ⟨by rw [hc, hc'], F ∘ F', cellKeeper_comp F' F hF' hF, ?_⟩
        rw [hr, hr', List.map_map]
    · rw [if_neg hk] at h
      replace h : imputeCategoricalAux t ks is = .ok u := h
      exact ih t h

theorem except_bind_ok {e a b : Type} (x : a) (f : a → Except e b) :
    (Except.ok x).bind f = f x := rfl

theorem except_map_ok {e a b : Type} (x : a) (f : a → b) :
    Except.map f (Except.ok (ε := e) x) = Except.ok (f x) := rfl

theorem dropRequired_ok_elim (t u : Table) (h : dropRequired t = .ok u) :
    ∃ i j, colIdx "sales_person" t.cols = some i ∧
      colIdx "total_sales_value" t.cols = some j ∧
      u.cols = t.cols ∧
      u.rows = t.rows.filter (fun r =>
        decide (getCell r i ≠ Val.missing) && decide (getCell r j ≠ Val.missing)) := by
  unfold dropRequired at h
  cases hi : colIdx "sales_person" t.cols with
  | none => rw [hi] at h; exact Except.noConfusion h
  | some i =>
    cases hj : colIdx "total_sales_value" t.cols with
    | none => rw [hi, hj] at h; exact Except.noConfusion h
    | some j =>
      rw [hi, hj] at h
      replace h : Except.ok (ε := SchemaError)
          { t with rows := t.rows.filter (fun r =>
              decide (getCell r i ≠ Val.missing) && decide (getCell r j ≠ Val.missing)) }
          = Except.ok u := h
      cases h
      exact ⟨i, j, rfl, rfl, rfl, rfl⟩

theorem parseDates_ok_elim (t u : Table) (h : parseDates t = .ok u) :
    ∃ i, colIdx "date" t.cols = some i ∧ u.cols = t.cols ∧
      u.rows = t.rows.map (fun r => setCell r i (dateParse (getCell r i))) := by
  unfold parseDates at h
  cases hi : colIdx "date" t.cols with
  | none => rw [hi] at h; exact Except.noConfusion h
  | some i =>
    rw [hi] at h
    replace h : Except.ok (ε := SchemaError)
        { t with rows := t.rows.map (fun r => setCell r i (dateParse (getCell r i))) }
        = Except.ok u := h
    cases h
    exact ⟨i, rfl, rfl, rfl⟩

theorem priorityStep_ok_elim (t : Table) (ks : List ColKind) (u : Table)
    (h : priorityStep t ks = .ok u) :
    ∃ i, colIdx "priority" t.cols = some i ∧ ks.getD i .object = .object ∧
      u = priorityCore t i := by
  unfold priorityStep at h
  cases hi : colIdx "priority" t.cols with
  | none => rw [hi] at h; exact Except.noConfusion h
  | some i =>
    rw [hi] at h
    replace h : (if ks.getD i .object ≠ .object
        then Except.error (SchemaError.notStringColumn "priority")
        else Except.ok (priorityCore t i)) = Except.ok u := h
    by_cases hk : ks.getD i .object ≠ .object
    · rw [if_pos hk] at h
      exact Except.noConfusion h
    · rw [if_neg hk] at h
      push_neg at hk
      replace h : priorityCore t i = u := Except.ok.inj h
      exact ⟨i, rfl, hk, h.symm⟩

theorem priorityCore_elim (t : Table) (i : Nat) :
    ((∃ j, colIdx "priority_numeric" t.cols = some j ∧
        (priorityCore t i).cols = t.cols ∧
        (priorityCore t i).rows =
          ((t.rows.map (fun r => setCell r i (prioNormV (getCell r i)))).filter
            (prioKeep i)).map (fun r => setCell r j (pnVal (getCell r i)))) ∨
      (colIdx "priority_numeric" t.cols = none ∧
        (priorityCore t i).cols = t.cols ++ ["priority_numeric"] ∧
        (priorityCore t i).rows =
          ((t.rows.map (fun r => setCell r i (prioNormV (getCell r i)))).filter
            (prioKeep i)).map (fun r => padTo t.cols.length r ++ [pnVal (getCell r i)]))) := by
  unfold priorityCore
  cases hj : colIdx "priority_numeric" t.cols with
  | some j => exact Or.inl ⟨j, rfl, rfl, rfl⟩
  | none => exact Or.inr ⟨rfl, rfl, rfl⟩

theorem dedupAux_subset (seen : List (List Val)) (l : List (List Val)) :
    ∀ x ∈ dedupAux seen l, x ∈ l := by
  induction l generalizing seen with
  | nil => intro x hx; simp [dedupAux] at hx
  | cons r rs ih =>
    intro x hx
    simp only [dedupAux] at hx
    by_cases hr : r ∈ seen
    · rw [if_pos hr] at hx
      exact List.mem_cons_of_mem r (ih seen x hx)
    · rw [if_neg hr] at hx
      rcases List.mem_cons.mp hx with rfl | hx'
      · simp
      · exact List.mem_cons_of_mem r (ih _ x hx')

theorem dedupAux_eq_self (l : List (List Val)) (seen : List (List Val))
    (hd : l.Nodup) (hs : ∀ r ∈ l, r ∉ seen) : dedupAux seen l = l := by
  induction l generalizing seen with
  | nil => rfl
  | cons r rs ih =>
    simp only [dedupAux]
    rw [if_neg (hs r (by simp))]
    congr 1
    apply ih _ (List.nodup_cons.mp hd).2
    intro x hx hmem
    rcases List.mem_cons.mp hmem with rfl | hmem'
    · exact (List.nodup_cons.mp hd).1 hx
    · exact hs x (List.mem_cons_of_mem r hx) hmem'

theorem dedupTable_cols (t : Table) : (dedupTable t).cols = t.cols := rfl

theorem dedupTable_mem (t : Table) (r : List Val) (h : r ∈ (dedupTable t).rows) :
    r ∈ t.rows := dedupAux_subset [] t.rows r h

theorem iqrStep_cols (t : Table) : (iqrStep t).cols = t.cols := by
  unfold iqrStep
  cases colIdx "total_sales_value" t.cols with
  | none => rfl
  | some j =>
    cases iqrBounds t with
    | none => rfl
    | some lu => cases lu; rfl

theorem iqrStep_mem (t : Table) (r : List Val) (h : r ∈ (iqrStep t).rows) : r ∈ t.rows := by
  unfold iqrStep at h
  cases hc : colIdx "total_sales_value" t.cols with
  | none => rw [hc] at h; exact h
  | some j =>
    rw [hc] at h
    cases hb : iqrBounds t with
    | none =>
      rw [hb] at h
      replace h : r ∈ ({ t with rows := ([] : List (List Val)) } : Table).rows := h
      simp at h
    | some lu =>
      rcases lu with ⟨lb, ub⟩
      rw [hb] at h
      replace h : r ∈ (t.rows.filter (iqrKeep j lb ub)) := h
      exact (List.mem_filter.mp h).1

theorem iqrStep_mem_keep (t : Table) (r : List Val) (j : Nat) (lb ub : Frac)
    (hc : colIdx "total_sales_value" t.cols = some j) (hb : iqrBounds t = some (lb, ub))
    (h : r ∈ (iqrStep t).rows) : iqrKeep j lb ub r = true := by
  unfold iqrStep at h
  rw [hc, hb] at h
  replace h : r ∈ (t.rows.filter (iqrKeep j lb ub)) := h
  exact (List.mem_filter.mp h).2

theorem preOutlier_ok_elim (t p : Table) (h : preOutlier t = .ok p) :
    ∃ t2 t4 t5 t6,
      dropRequired (stage1 t) = .ok t2 ∧
      imputeCategorical (imputeNumeric t2 (stageKinds t)) (stageKinds t) = .ok t4 ∧
      parseDates t4 = .ok t5 ∧
      priorityStep t5 (stageKinds t) = .ok t6 ∧
      p = dedupTable t6 := by
  unfold preOutlier at h
  cases h2 : dropRequired (stage1 t) with
  | error e => rw [h2] at h; exact Except.noConfusion h
  | ok t2 =>
    rw [h2] at h
    simp only [except_bind_ok] at h
    cases h4 : imputeCategorical (imputeNumeric t2 (stageKinds t)) (stageKinds t) with
    | error e => rw [h4] at h; exact Except.noConfusion h
    | ok t4 =>
      rw [h4] at h
      simp only [except_bind_ok] at h
      cases h5 : parseDates t4 with
      | error e => rw [h5] at h; exact Except.noConfusion h
      | ok t5 =>
        rw [h5] at h
        simp only [except_bind_ok] at h
        cases h6 : priorityStep t5 (stageKinds t) with
        | error e => rw [h6] at h; exact Except.noConfusion h
        | ok t6 =>
          rw [h6] at h
          simp only [except_map_ok] at h
          replace h : dedupTable t6 = p := Except.ok.inj h
          exact ⟨t2, t4, t5, t6, rfl, h4, h5, h6, h.symm⟩

theorem clean_ok_elim (t c : Table) (h : clean t = .ok c) :
    ∃ p, preOutlier t = .ok p ∧ c = iqrStep p := by
  unfold clean at h
  cases hp : preOutlier t with
  | error e => rw [hp] at h; exact Except.noConfusion h
  | ok p =>
    rw [hp] at h
    replace h : Except.ok (ε := SchemaError) (iqrStep p) = Except.ok c := h
    cases h
    exact ⟨p, rfl, rfl⟩

/-
The claims.
-/

/-- C1: for every row of the cleaned output table, its `total_sales_value`
lies within `[Q1 - 1.5*IQR, Q3 + 1.5*IQR]`, where the bounds are computed on
`total_sales_value` over the table as it stands after imputation, the
priority filter, and deduplication (the `preOutlier` table). -/
theorem c1_outlier_bounds (t p c : Table) (hp : preOutlier t = .ok p)
    (hc : clean t = .ok c) (j : Nat) (hj : colIdx "total_sales_value" p.cols = some j)
    (r : List Val) (hr : r ∈ c.rows) :
    ∃ q lb ub, iqrBounds p = some (lb, ub) ∧ getCell r j = Val.num q ∧
      lb.le q = true ∧ q.le ub = true := by
  rcases clean_ok_elim t c hc with ⟨p', hp', hcp⟩
  rw [hp] at hp'
  replace hp' : p = p' := Except.ok.inj hp'
  subst hp'
  subst hcp
  cases hb : iqrBounds p with
  | none =>
    exfalso
    unfold iqrStep at hr
    rw [hj, hb] at hr
    replace hr : r ∈ ({ p with rows := ([] : List (List Val)) } : Table).rows := hr
    simp at hr
  | some lu =>
    rcases lu with ⟨lb, ub⟩
    have hkeep := iqrStep_mem_keep p r j lb ub hj hb hr
    unfold iqrKeep at hkeep
    cases hv : getCell r j with
    | num q =>
      rw [hv] at hkeep
      replace hkeep : (lb.le q && q.le ub) = true := hkeep
      rcases Bool.and_eq_true_iff.mp hkeep with ⟨h1, h2⟩
      exact ⟨q, lb, ub, rfl, rfl, h1, h2⟩
    | str s => rw [hv] at hkeep; exact absurd hkeep (by simp)
    | dateVal s => rw [hv] at hkeep; exact absurd hkeep (by simp)
    | missing => rw [hv] at hkeep; exact absurd hkeep (by simp)

/-- Witness for C1 at a concrete one-row table. -/
theorem c1_outlier_bounds_witness :
    ∃ q lb ub, iqrBounds (probeKept "Low" (fq 1)) = some (lb, ub) ∧
      getCell [Val.str "A", Val.num (fq 100), Val.str "Low",
        Val.dateVal "2024-01-01", Val.num (fq 1)] 1 = Val.num q ∧
      lb.le q = true ∧ q.le ub = true :=
  c1_outlier_bounds (prioProbe "Low") (probeKept "Low" (fq 1)) (probeKept "Low" (fq 1))
    (by decide) (by decide) 1 (by decide)
    [Val.str "A", Val.num (fq 100), Val.str "Low", Val.dateVal "2024-01-01", Val.num (fq 1)]
    (by decide)

/-- C4 counterexample: cleaning is not idempotent — on `iqrRerunTable` the
first run keeps 5 rows, re-running the cleaner on its output keeps only 4,
because the IQR bounds recomputed from the cleaned table are tighter. -/
theorem c4_not_idempotent_cex :
    (clean iqrRerunTable).map (fun c => c.rows.length) = .ok 5 ∧
    ((clean iqrRerunTable).bind clean).map (fun c => c.rows.length) = .ok 4 := by
  constructor
  · decide
  · decide

/-- C6: the claim that value-level defects never raise is wrong on the code —
on `allMissingCatTable` (whose `region` column is entirely missing after the
required-field drop) the pipeline aborts, modelling `mode()[0]` raising on an
empty mode series. -/
theorem c6_all_missing_cat_raises :
    clean allMissingCatTable = .error (.emptyMode "region") := by decide

/-- C7 counterexample: on the spec's scenario rows the final clean table has
1 row, not 2 — Bob's row is dropped by the required-field rule before
imputation, and the duplicate Alice rows collapse to one. -/
theorem c7_scenario_cex :
    (clean scenarioTable).map (fun c => c.rows.length) = .ok 1 ∧ (1 : Nat) ≠ 2 := by
  constructor
  · decide
  · decide

/-- C7 amended: on the scenario rows the cleaner drops Bob's row (missing
`total_sales_value`), never imputes it, deduplicates the two Alice rows, and
produces exactly the one-row table `scenarioCleaned`. -/
theorem c7_scenario_amended : clean scenarioTable = .ok scenarioCleaned := by decide

/-- C8 counterexample: the printed cleaning diagnostics (the `df` column list
and the final `df_valid` shape) do not determine — hence do not surface — the
number of rows dropped for a missing required field: `reportTableA` and
`reportTableB` produce identical reports but drop 0 and 1 rows. -/
theorem c8_report_cex :
    reportOf reportTableA = reportOf reportTableB ∧
    droppedRequired reportTableA = 0 ∧ droppedRequired reportTableB = 1 := by
  refine ⟨by decide, by decide, by decide⟩

/-- C8 amended: the diagnostics consist of exactly the cleaned column list of
`df` and the shape of the final table — nothing else (in particular no
dropped-row counts). -/
theorem c8_report_amended (t c : Table) (h : clean t = .ok c) :
    reportOf t = .ok { dfColumns := (stage1 t).cols,
                       finalShape := (c.rows.length, c.cols.length) } := by
  unfold reportOf
  rw [h]
  rfl

/-- Witness for the amended C8 at a concrete table. -/
theorem c8_report_amended_witness :
    reportOf reportTableA = .ok ⟨(stage1 reportTableA).cols,
      ((probeKept "Low" (fq 1)).rows.length, (probeKept "Low" (fq 1)).cols.length)⟩ :=
  c8_report_amended reportTableA (probeKept "Low" (fq 1)) (by decide)

/-- C9: cleaning is deterministic (it is a function of the input table), and
when several categorical values tie for most frequent, the imputation mode is
the least such value in sorted order — the fixed tie-break pandas implements
via `mode()[0]`. -/
theorem c9_deterministic_mode_tiebreak :
    (∀ t₁ t₂ : Table, t₁ = t₂ → clean t₁ = clean t₂) ∧
    (∀ vals m, modeVal vals = some m →
      m ∈ nonMissing vals ∧
      (nonMissing vals).count m = maxCount (nonMissing vals) ∧
      ∀ v ∈ nonMissing vals,
        (nonMissing vals).count v = maxCount (nonMissing vals) → valLe m v = true) :=
  ⟨fun _ _ h => by rw [h], modeVal_spec⟩

/-- Witness for C9 on a column with a two-way mode tie: the mode is "a", the
sorted-first of the tied values, and it compares below the tied "b". -/
theorem c9_deterministic_mode_tiebreak_witness :
    Val.str "a" ∈ nonMissing tieList ∧
    (nonMissing tieList).count (Val.str "a") = maxCount (nonMissing tieList) ∧
    valLe (Val.str "a") (Val.str "b") = true := by
  have h := c9_deterministic_mode_tiebreak.2 tieList (Val.str "a") (by decide)
  exact ⟨h.1, h.2.1, h.2.2 (Val.str "b") (by decide) (by decide)⟩

theorem stage1_rows (t : Table) : (stage1 t).rows = t.rows := by
  unfold stage1 renameValueCol normalizeCols
  split <;> rfl

theorem getD_map_range (n : Nat) (f : Nat → ColKind) (i : Nat) (h : i < n) (d : ColKind) :
    ((List.range n).map f).getD i d = f i := by
  rw [List.getD_eq_getElem?_getD, List.getElem?_map, List.getElem?_range h]
  rfl

/-- C5: a malformed input — no rows, or no resolvable
`sales_person`/`total_sales_value` column pair after renaming — makes the
pipeline signal a `SchemaError` before any statistics are computed: the
`analysis` value is an error and no `Stats` are produced. -/
theorem c5_malformed_aborts (t : Table)
    (h : t.rows = [] ∨ colIdx "sales_person" (stage1 t).cols = none ∨
         colIdx "total_sales_value" (stage1 t).cols = none) :
    ∃ e, analysis t = .error e := by
  suffices hcl : ∃ e, clean t = .error e by
    rcases hcl with ⟨e, he⟩
    exact ⟨e, by unfold analysis; rw [he]; rfl⟩
  suffices hpre : ∃ e, preOutlier t = .error e by
    rcases hpre with ⟨e, he⟩
    exact ⟨e, by unfold clean; rw [he]; rfl⟩
  cases hsp : colIdx "sales_person" (stage1 t).cols with
  | none =>
    refine ⟨.missingColumn "sales_person", ?_⟩
    unfold preOutlier
    rw [show dropRequired (stage1 t) = .error (.missingColumn "sales_person") from by
      unfold dropRequired; rw [hsp]]
    rfl
  | some iSp =>
    cases htsv : colIdx "total_sales_value" (stage1 t).cols with
    | none =>
      refine ⟨.missingColumn "total_sales_value", ?_⟩
      unfold preOutlier
      rw [show dropRequired (stage1 t) = .error (.missingColumn "total_sales_value") from by
        unfold dropRequired; rw [hsp, htsv]]
      rfl
    | some iT =>
      have hrows : t.rows = [] := by
        rcases h with h | h | h
        · exact h
        · rw [hsp] at h; exact absurd h (by simp)
        · rw [htsv] at h; exact absurd h (by simp)
      have hsrows : (stage1 t).rows = [] := by rw [stage1_rows]; exact hrows
      have hdrop : dropRequired (stage1 t) = .ok { stage1 t with rows := [] } := by
        unfold dropRequired
        rw [hsp, htsv, hsrows]
        rfl
      have hlen : 0 < (stage1 t).cols.length :=
        Nat.lt_of_le_of_lt (Nat.zero_le iSp) (colIdx_lt_length _ _ _ hsp)
      have hk0 : (stageKinds t).getD 0 .object = .object := by
        unfold stageKinds
        rw [getD_map_range _ _ 0 hlen]
        have hcv : colVals (stage1 t) 0 = [] := by
          unfold colVals; rw [hsrows]; rfl
        rw [hcv]
        rfl
      rcases imputeNumeric_mapped { stage1 t with rows := ([] : List (List Val)) }
          (stageKinds t) with ⟨hc3, F, hF, hr3⟩
      set t3 := imputeNumeric { stage1 t with rows := ([] : List (List Val)) } (stageKinds t)
        with ht3
      have ht3rows : t3.rows = [] := by rw [hr3]; rfl
      have ht3len : 0 < t3.cols.length := by rw [hc3]; exact hlen
      have hcat0 : imputeCatCol t3 0 = .error (.emptyMode (t3.cols.getD 0 "")) := by
        unfold imputeCatCol
        rw [show colVals t3 0 = [] from by unfold colVals; rw [ht3rows]; rfl]
        rfl
      obtain ⟨m, hm⟩ : ∃ m, t3.cols.length = m + 1 :=
        ⟨t3.cols.length - 1, by omega⟩
      have hcaterr : imputeCategorical t3 (stageKinds t)
          = .error (.emptyMode (t3.cols.getD 0 "")) := by
        unfold imputeCategorical
        rw [hm, List.range_succ_eq_map]
        simp only [imputeCategoricalAux]
        rw [if_pos hk0, hcat0]
        rfl
      refine ⟨.emptyMode (t3.cols.getD 0 ""), ?_⟩
      unfold preOutlier
      rw [hdrop]
      simp only [except_bind_ok]
      rw [← ht3, hcaterr]
      rfl

/-- Witness for C5 at an entirely empty raw table. -/
theorem c5_malformed_aborts_witness : ∃ e, analysis emptyRawTable = .error e :=
  c5_malformed_aborts emptyRawTable (Or.inl rfl)

theorem setCell_oob (r : List Val) (i : Nat) (v : Val) (h : r.length ≤ i) :
    setCell r i v = r := by
  unfold setCell
  induction r generalizing i with
  | nil => rfl
  | cons a as ih =>
    cases i with
    | zero => simp at h
    | succ i' =>
      simp only [List.set]
      rw [ih i' (Nat.le_of_succ_le_succ h)]

theorem dateParse_missing_iff (v : Val) :
    dateParse v = Val.missing ↔ dateParsable v = false := by
  cases v with
  | str s =>
    by_cases h : isDateString s = true
    · simp [dateParse, dateParsable, h]
    · simp only [Bool.not_eq_true] at h
      simp [dateParse, dateParsable, h]
  | dateVal s => simp [dateParse, dateParsable]
  | num q => simp [dateParse, dateParsable]
  | missing => simp [dateParse, dateParsable]

/-- C10: imputation alters only missing entries — a cell that is non-missing
before the numeric-median and categorical-mode passes has the same value
after both; the mode pass writes the column's modal value into missing
cells (so a missing raw date is filled with the modal raw value before date
parsing); and after date parsing a date cell is missing exactly when the
(possibly imputed) raw value was unparseable. -/
theorem c10_imputation_frame :
    (∀ (t : Table) (ks : List ColKind) (u : Table),
      imputeCategorical (imputeNumeric t ks) ks = .ok u →
      ∀ (n : Nat) (r r' : List Val), t.rows[n]? = some r → u.rows[n]? = some r' →
        ∀ k, getCell r k ≠ Val.missing → getCell r' k = getCell r k) ∧
    (∀ (t : Table) (i : Nat) (u : Table) (m : Val),
      imputeCatCol t i = .ok u → modeVal (colVals t i) = some m →
      ∀ (n : Nat) (r r' : List Val), t.rows[n]? = some r → u.rows[n]? = some r' →
        getCell r i = Val.missing → i < r.length → getCell r' i = m) ∧
    (∀ (t u : Table) (iD : Nat),
      parseDates t = .ok u → colIdx "date" t.cols = some iD →
      ∀ (n : Nat) (r r' : List Val), t.rows[n]? = some r → u.rows[n]? = some r' →
        (getCell r' iD = Val.missing ↔ dateParsable (getCell r iD) = false)) := by
  refine ⟨?_, ?_, ?_⟩
  · intro t ks u h n r r' hn hn' k hk
    rcases imputeNumeric_mapped t ks with ⟨hc3, F1, hF1, hr3⟩
    unfold imputeCategorical at h
    rcases imputeCategoricalAux_mapped ks _ _ u h with ⟨hcu, F2, hF2, hru⟩
    rw [hr3, List.map_map] at hru
    rw [hru, List.getElem?_map, hn] at hn'
    replace hn' : some ((F2 ∘ F1) r) = some r' := hn'
    cases hn'
    exact (cellKeeper_comp F1 F2 hF1 hF2 r).2 k hk
  · intro t i u m h hm n r r' hn hn' hmiss hlt
    unfold imputeCatCol at h
    rw [hm] at h
    replace h : Except.ok (ε := SchemaError)
        { t with rows := t.rows.map (catFillFun i m) } = Except.ok u := h
    cases h
    rw [List.getElem?_map, hn] at hn'
    replace hn' : some (catFillFun i m r) = some r' := hn'
    cases hn'
    unfold catFillFun
    rw [if_pos hmiss]
    exact getCell_setCell_self r i m hlt
  · intro t u iD h hcol n r r' hn hn' 
    rcases parseDates_ok_elim t u h with ⟨iD', hcol', hcols, hrows⟩
    rw [hcol] at hcol'
    replace hcol' : iD = iD' := Option.some.inj hcol'
    subst hcol'
    rw [hrows, List.getElem?_map, hn] at hn'
    replace hn' : some (setCell r iD (dateParse (getCell r iD))) = some r' := hn'
    cases hn'
    by_cases hlt : iD < r.length
    · rw [getCell_setCell_self r iD _ hlt]
      exact dateParse_missing_iff _
    · rw [setCell_oob r iD _ (Nat.le_of_not_lt hlt)]
      have hmiss : getCell r iD = Val.missing :=
        getD_ge_length r Val.missing iD (Nat.le_of_not_lt hlt)
      rw [hmiss]
      simp [dateParsable]

/-- Witness for C10: the median fill leaves the non-missing "x" cell alone,
the mode fill writes "y" into the missing cell, and the parsed date of a
parseable raw string is not missing. -/
theorem c10_imputation_frame_witness :
    getCell [Val.str "x", Val.num (fq 5)] 0 = getCell [Val.str "x", Val.missing] 0 ∧
    getCell [Val.str "y"] 0 = Val.str "y" ∧
    (getCell [Val.dateVal "2024-01-01"] 0 = Val.missing ↔
      dateParsable (getCell [Val.str "2024-01-01"] 0) = false) := by
  refine ⟨?_, ?_, ?_⟩
  · exact c10_imputation_frame.1 frameTable frameKinds frameFilled (by decide) 0
      [Val.str "x", Val.missing] [Val.str "x", Val.num (fq 5)] (by decide) (by decide) 0
      (by decide)
  · exact c10_imputation_frame.2.1 catFillTable 0 catFillFilled (Val.str "y") (by decide)
      (by decide) 0 [Val.missing] [Val.str "y"] (by decide) (by decide) (by decide) (by decide)
  · exact c10_imputation_frame.2.2 dateTable dateParsed 0 (by decide) (by decide) 0
      [Val.str "2024-01-01"] [Val.dateVal "2024-01-01"] (by decide) (by decide)

theorem stage1_cols_length (t : Table) : (stage1 t).cols.length = t.cols.length := by
  unfold stage1 renameValueCol normalizeCols
  split <;> simp

theorem prioKeep_elim (i : Nat) (r : List Val) (h : prioKeep i r = true) :
    ∃ s, getCell r i = Val.str s ∧ s ∈ priorityKeys := by
  unfold prioKeep at h
  cases hv : getCell r i with
  | str s =>
    rw [hv] at h
    replace h : decide (s ∈ priorityKeys) = true := h
    exact ⟨s, rfl, of_decide_eq_true h⟩
  | num q => rw [hv] at h; exact absurd h (by simp)
  | dateVal s => rw [hv] at h; exact absurd h (by simp)
  | missing => rw [hv] at h; exact absurd h (by simp)

theorem mem_priorityKeys_mapQ (s : String) (h : s ∈ priorityKeys) :
    ∃ qv, priorityMapQ s = some qv := by
  rcases show s = "Low" ∨ s = "Medium" ∨ s = "High" ∨ s = "Critical" from by
      simpa [priorityKeys] using h with rfl | rfl | rfl | rfl
  · exact ⟨fq 1, rfl⟩
  · exact ⟨fq 2, rfl⟩
  · exact ⟨fq 3, rfl⟩
  · exact ⟨fq 4, rfl⟩

theorem pnVal_str (s : String) (qv : Frac) (h : priorityMapQ s = some qv) :
    pnVal (Val.str s) = Val.num qv := by
  show (match priorityMapQ s with
        | some n => Val.num n
        | none => Val.missing) = Val.num qv
  rw [h]

/-- C3: every row of the cleaned output table has a non-missing
`sales_person`, a non-missing `total_sales_value`, a priority drawn from the
fixed ordinal set, and a present `priority_numeric` equal to the ordinal
mapping of the priority. -/
theorem c3_no_nulls (t c : Table) (hwf : WFtable t) (hc : clean t = .ok c)
    (r : List Val) (hr : r ∈ c.rows) :
    ∃ iSp iT iP iN s qv,
      colIdx "sales_person" c.cols = some iSp ∧
      colIdx "total_sales_value" c.cols = some iT ∧
      colIdx "priority" c.cols = some iP ∧
      colIdx "priority_numeric" c.cols = some iN ∧
      getCell r iSp ≠ Val.missing ∧
      getCell r iT ≠ Val.missing ∧
      getCell r iP = Val.str s ∧ s ∈ priorityKeys ∧
      priorityMapQ s = some qv ∧ getCell r iN = Val.num qv := by
  rcases clean_ok_elim t c hc with ⟨p, hp, hcp⟩
  subst hcp
  rcases preOutlier_ok_elim t p hp with ⟨t2, t4, t5, t6, h2, h4, h5, h6, hpd⟩
  subst hpd
  have hr6 : r ∈ t6.rows := dedupTable_mem t6 r (iqrStep_mem _ r hr)
  rcases priorityStep_ok_elim t5 _ t6 h6 with ⟨iPr, hiPr, hkObj, ht6⟩
  subst ht6
  rcases dropRequired_ok_elim _ t2 h2 with ⟨iSp1, iT1, hSp1, hT1, ht2c, ht2r⟩
  rcases imputeNumeric_mapped t2 (stageKinds t) with ⟨hc3, F1, hF1, hr3⟩
  unfold imputeCategorical at h4
  rcases imputeCategoricalAux_mapped (stageKinds t) _ _ t4 h4 with ⟨hc4, F2, hF2, hr4⟩
  rcases parseDates_ok_elim t4 t5 h5 with ⟨iD, hiD, hc5, hr5⟩
  have hcols5 : t5.cols = (stage1 t).cols := by rw [hc5, hc4, hc3, ht2c]
  have hlen5 : t5.cols.length = t.cols.length := by rw [hcols5, stage1_cols_length]
  have hSp5 : colIdx "sales_person" t5.cols = some iSp1 := by rw [hcols5]; exact hSp1
  have hT5 : colIdx "total_sales_value" t5.cols = some iT1 := by rw [hcols5]; exact hT1
  have hD5 : colIdx "date" t5.cols = some iD := by rw [hc5]; exact hiD
  have hCK := cellKeeper_comp F1 F2 hF1 hF2
  -- distinct indices
  have hPrSp : iPr ≠ iSp1 := colIdx_ne_of_ne _ _ _ _ _ hiPr hSp5 (by decide)
  have hPrT : iPr ≠ iT1 := colIdx_ne_of_ne _ _ _ _ _ hiPr hT5 (by decide)
  have hDSp : iD ≠ iSp1 := colIdx_ne_of_ne _ _ _ _ _ hD5 hSp5 (by decide)
  have hDT : iD ≠ iT1 := colIdx_ne_of_ne _ _ _ _ _ hD5 hT5 (by decide)
  rcases priorityCore_elim t5 iPr with ⟨j, hj, hbc, hbr⟩ | ⟨hnone, hbc, hbr⟩
  · -- priority_numeric column already exists at index j and is overwritten
    rw [hbr] at hr6
    rcases List.mem_map.mp hr6 with ⟨rT, hrTmem, hrdef⟩
    rcases List.mem_filter.mp hrTmem with ⟨hrTmem1, hkeep⟩
    rcases List.mem_map.mp hrTmem1 with ⟨r5, hr5mem, hTdef⟩
    rcases prioKeep_elim iPr rT hkeep with ⟨s, hsval, hskey⟩
    rcases mem_priorityKeys_mapQ s hskey with ⟨qv, hqv⟩
    rw [hr5] at hr5mem
    rcases List.mem_map.mp hr5mem with ⟨r4, hr4mem, hDdef⟩
    rw [hr4, hr3, List.map_map] at hr4mem
    rcases List.mem_map.mp hr4mem with ⟨r2, hr2mem, hFdef⟩
    rw [ht2r] at hr2mem
    rcases List.mem_filter.mp hr2mem with ⟨hr1mem, hpred⟩
    rcases Bool.and_eq_true_iff.mp hpred with ⟨hpredSp, hpredT⟩
    have hsp2 : getCell r2 iSp1 ≠ Val.missing := of_decide_eq_true hpredSp
    have ht2v : getCell r2 iT1 ≠ Val.missing := of_decide_eq_true hpredT
    have hr2len : r2.length = t.cols.length :=
      hwf r2 (by rw [← stage1_rows t]; exact hr1mem)
    have hr4len : r4.length = r2.length := by rw [← hFdef]; exact (hCK r2).1
    have hr5len : r5.length = r2.length := by rw [← hDdef, setCell_length, hr4len]
    have hrTlen : rT.length = r2.length := by rw [← hTdef, setCell_length, hr5len]
    have hJSp : j ≠ iSp1 := colIdx_ne_of_ne _ _ _ _ _ hj hSp5 (by decide)
    have hJT : j ≠ iT1 := colIdx_ne_of_ne _ _ _ _ _ hj hT5 (by decide)
    have hJPr : j ≠ iPr := colIdx_ne_of_ne _ _ _ _ _ hj hiPr (by decide)
    have hccols : (iqrStep (dedupTable (priorityCore t5 iPr))).cols = t5.cols := by
      rw [iqrStep_cols, dedupTable_cols, hbc]
    have hspcell : getCell r iSp1 = getCell r2 iSp1 := by
      rw [← hrdef, getCell_setCell_ne rT j iSp1 _ hJSp,
          ← hTdef, getCell_setCell_ne r5 iPr iSp1 _ hPrSp,
          ← hDdef, getCell_setCell_ne r4 iD iSp1 _ hDSp,
          ← hFdef]
      exact (hCK r2).2 iSp1 hsp2
    have htcell : getCell r iT1 = getCell r2 iT1 := by
      rw [← hrdef, getCell_setCell_ne rT j iT1 _ hJT,
          ← hTdef, getCell_setCell_ne r5 iPr iT1 _ hPrT,
          ← hDdef, getCell_setCell_ne r4 iD iT1 _ hDT,
          ← hFdef]
      exact (hCK r2).2 iT1 ht2v
    have hpricell : getCell r iPr = Val.str s := by
      rw [← hrdef, getCell_setCell_ne rT j iPr _ hJPr]
      exact hsval
    have hjlen : j < rT.length := by
      rw [hrTlen, hr2len, ← hlen5]
      exact colIdx_lt_length _ _ _ hj
    have hpncell : getCell r j = Val.num qv := by
      rw [← hrdef, getCell_setCell_self rT j _ hjlen, hsval, pnVal_str s qv hqv]
    refine ⟨iSp1, iT1, iPr, j, s, qv, ?_, ?_, ?_, ?_, ?_, ?_, hpricell, hskey, hqv, hpncell⟩
    · rw [hccols]; exact hSp5
    · rw [hccols]; exact hT5
    · rw [hccols]; exact hiPr
    · rw [hccols]; exact hj
    · rw [hspcell]; exact hsp2
    · rw [htcell]; exact ht2v
  · -- priority_numeric column is appended at index t5.cols.length
    rw [hbr] at hr6
    rcases List.mem_map.mp hr6 with ⟨rT, hrTmem, hrdef⟩
    rcases List.mem_filter.mp hrTmem with ⟨hrTmem1, hkeep⟩
    rcases List.mem_map.mp hrTmem1 with ⟨r5, hr5mem, hTdef⟩
    rcases prioKeep_elim iPr rT hkeep with ⟨s, hsval, hskey⟩
    rcases mem_priorityKeys_mapQ s hskey with ⟨qv, hqv⟩
    rw [hr5] at hr5mem
    rcases List.mem_map.mp hr5mem with ⟨r4, hr4mem, hDdef⟩
    rw [hr4, hr3, List.map_map] at hr4mem
    rcases List.mem_map.mp hr4mem with ⟨r2, hr2mem, hFdef⟩
    rw [ht2r] at hr2mem
    rcases List.mem_filter.mp hr2mem with ⟨hr1mem, hpred⟩
    rcases Bool.and_eq_true_iff.mp hpred with ⟨hpredSp, hpredT⟩
    have hsp2 : getCell r2 iSp1 ≠ Val.missing := of_decide_eq_true hpredSp
    have ht2v : getCell r2 iT1 ≠ Val.missing := of_decide_eq_true hpredT
    have hccols : (iqrStep (dedupTable (priorityCore t5 iPr))).cols
        = t5.cols ++ ["priority_numeric"] := by
      rw [iqrStep_cols, dedupTable_cols, hbc]
    have hSpLt : iSp1 < t5.cols.length := colIdx_lt_length _ _ _ hSp5
    have hTLt : iT1 < t5.cols.length := colIdx_lt_length _ _ _ hT5
    have hPrLt : iPr < t5.cols.length := colIdx_lt_length _ _ _ hiPr
    have hspcell : getCell r iSp1 = getCell r2 iSp1 := by
      rw [← hrdef, getCell_append_left _ _ iSp1 (by rw [padTo_length]; exact hSpLt),
          getCell_padTo _ rT iSp1 hSpLt,
          ← hTdef, getCell_setCell_ne r5 iPr iSp1 _ hPrSp,
          ← hDdef, getCell_setCell_ne r4 iD iSp1 _ hDSp,
          ← hFdef]
      exact (hCK r2).2 iSp1 hsp2
    have htcell : getCell r iT1 = getCell r2 iT1 := by
      rw [← hrdef, getCell_append_left _ _ iT1 (by rw [padTo_length]; exact hTLt),
          getCell_padTo _ rT iT1 hTLt,
          ← hTdef, getCell_setCell_ne r5 iPr iT1 _ hPrT,
          ← hDdef, getCell_setCell_ne r4 iD iT1 _ hDT,
          ← hFdef]
      exact (hCK r2).2 iT1 ht2v
    have hpricell : getCell r iPr = Val.str s := by
      rw [← hrdef, getCell_append_left _ _ iPr (by rw [padTo_length]; exact hPrLt),
          getCell_padTo _ rT iPr hPrLt]
      exact hsval
    have hpncell : getCell r t5.cols.length = Val.num qv := by
      rw [← hrdef, getCell_append_at _ _ _ (padTo_length _ rT), hsval, pnVal_str s qv hqv]
    refine ⟨iSp1, iT1, iPr, t5.cols.length, s, qv, ?_, ?_, ?_, ?_, ?_, ?_,
      hpricell, hskey, hqv, hpncell⟩
    · rw [hccols]; exact colIdx_append_of_some _ _ _ _ hSp5
    · rw [hccols]; exact colIdx_append_of_some _ _ _ _ hT5
    · rw [hccols]; exact colIdx_append_of_some _ _ _ _ hiPr
    · rw [hccols]; exact colIdx_append_self _ _ hnone
    · rw [hspcell]; exact hsp2
    · rw [htcell]; exact ht2v

/-- Witness for C3 at a concrete one-row table. -/
theorem c3_no_nulls_witness :
    ∃ iSp iT iP iN s qv,
      colIdx "sales_person" (probeKept "Low" (fq 1)).cols = some iSp ∧
      colIdx "total_sales_value" (probeKept "Low" (fq 1)).cols = some iT ∧
      colIdx "priority" (probeKept "Low" (fq 1)).cols = some iP ∧
      colIdx "priority_numeric" (probeKept "Low" (fq 1)).cols = some iN ∧
      getCell [Val.str "A", Val.num (fq 100), Val.str "Low",
        Val.dateVal "2024-01-01", Val.num (fq 1)] iSp ≠ Val.missing ∧
      getCell [Val.str "A", Val.num (fq 100), Val.str "Low",
        Val.dateVal "2024-01-01", Val.num (fq 1)] iT ≠ Val.missing ∧
      getCell [Val.str "A", Val.num (fq 100), Val.str "Low",
        Val.dateVal "2024-01-01", Val.num (fq 1)] iP = Val.str s ∧ s ∈ priorityKeys ∧
      priorityMapQ s = some qv ∧
      getCell [Val.str "A", Val.num (fq 100), Val.str "Low",
        Val.dateVal "2024-01-01", Val.num (fq 1)] iN = Val.num qv :=
  c3_no_nulls (prioProbe "Low") (probeKept "Low" (fq 1))
    (fun r hmem => by rcases List.mem_singleton.mp hmem with rfl; rfl) (by decide)
    [Val.str "A", Val.num (fq 100), Val.str "Low", Val.dateVal "2024-01-01", Val.num (fq 1)]
    (by decide)

theorem priorityMapQ_none_iff (s : String) :
    priorityMapQ s = none ↔ s ∉ priorityKeys := by
  unfold priorityMapQ priorityKeys
  split_ifs with h1 h2 h3 h4 <;> simp_all

theorem priorityMapQ_some_mem (s : String) (qv : Frac) (h : priorityMapQ s = some qv) :
    s ∈ priorityKeys := by
  by_contra hn
  rw [← priorityMapQ_none_iff] at hn
  rw [h] at hn
  exact Option.noConfusion hn


set_option maxHeartbeats 1000000 in
/-- Symbolic evaluation of the whole pipeline on the one-row probe: the row
is retained (with its priority rewritten to `capStrip` of the raw value and
`priority_numeric` attached) exactly when the capitalize-then-strip
normalization lands in the ordinal key set. -/
theorem clean_prioProbe (pS : String) :
    clean (prioProbe pS) =
      .ok (if capStrip pS ∈ priorityKeys then probeKeptV (capStrip pS) else probeEmpty) := by
  have hmode : modeVal [Val.str pS] = some (Val.str pS) :=
    modeVal_singleton (Val.str pS) (fun h => Val.noConfusion h)
  have hcat2 : imputeCatCol (prioProbe pS) 2 = .ok (prioProbe pS) := by
    unfold imputeCatCol
    rw [show colVals (prioProbe pS) 2 = [Val.str pS] from rfl, hmode]
    rfl
  have hauxAll : imputeCategoricalAux (prioProbe pS) probeKinds [0, 1, 2, 3]
      = .ok (prioProbe pS) := by
    show (imputeCatCol (prioProbe pS) 0).bind
      (fun t' => imputeCategoricalAux t' probeKinds [1, 2, 3]) = .ok (prioProbe pS)
    rw [show imputeCatCol (prioProbe pS) 0 = .ok (prioProbe pS) from rfl]
    show (imputeCatCol (prioProbe pS) 2).bind
      (fun t' => imputeCategoricalAux t' probeKinds [3]) = .ok (prioProbe pS)
    rw [hcat2]
    show (imputeCatCol (prioProbe pS) 3).bind
      (fun t' => imputeCategoricalAux t' probeKinds []) = .ok (prioProbe pS)
    rw [show imputeCatCol (prioProbe pS) 3 = .ok (prioProbe pS) from rfl]
    rfl
  have hpre : preOutlier (prioProbe pS)
      = .ok (dedupTable (priorityCore (probeParsed pS) 2)) := by
    unfold preOutlier
    simp only [show stage1 (prioProbe pS) = prioProbe pS from rfl,
               show stageKinds (prioProbe pS) = probeKinds from rfl,
               show dropRequired (prioProbe pS) = Except.ok (prioProbe pS) from rfl,
               except_bind_ok,
               show imputeNumeric (prioProbe pS) probeKinds = prioProbe pS from rfl]
    unfold imputeCategorical
    simp only [show List.range (prioProbe pS).cols.length = [0, 1, 2, 3] from rfl, hauxAll,
               except_bind_ok,
               show parseDates (prioProbe pS) = Except.ok (probeParsed pS) from rfl,
               show priorityStep (probeParsed pS) probeKinds
                 = Except.ok (priorityCore (probeParsed pS) 2) from rfl,
               except_map_ok]
  have hclean : clean (prioProbe pS)
      = .ok (iqrStep (dedupTable (priorityCore (probeParsed pS) 2))) := by
    unfold clean
    rw [hpre]
    rfl
  have hcore : priorityCore (probeParsed pS) 2
      = { cols := probeCols,
          rows := (List.filter (prioKeep 2) [keptRow4 (capStrip pS)]).map
            (fun r => padTo 4 r ++ [pnVal (getCell r 2)]) } := rfl
  by_cases hKey : capStrip pS ∈ priorityKeys
  · rw [if_pos hKey, hclean, hcore]
    have hpk : prioKeep 2 (keptRow4 (capStrip pS)) = true := by
      show decide (capStrip pS ∈ priorityKeys) = true
      exact decide_eq_true hKey
    rw [show List.filter (prioKeep 2) [keptRow4 (capStrip pS)] = [keptRow4 (capStrip pS)] from by
      rw [List.filter_cons, hpk]
      rfl]
    rfl
  · rw [if_neg hKey, hclean, hcore]
    have hpk : prioKeep 2 (keptRow4 (capStrip pS)) = false := by
      show decide (capStrip pS ∈ priorityKeys) = false
      exact decide_eq_false hKey
    rw [show List.filter (prioKeep 2) [keptRow4 (capStrip pS)] = [] from by
      rw [List.filter_cons, hpk]
      rfl]
    rfl

/-- C2 counterexample: the priority value " lOw " equals "Low" up to letter
case and surrounding whitespace, yet the row is excluded from the clean
table — line 104 capitalizes before it strips, so a leading space defeats
the case normalization and the claim as stated is false. -/
theorem c2_leading_whitespace_cex :
    lowerTrim " lOw " = lowerTrim "Low" ∧
    clean (prioProbe " lOw ") = .ok probeEmpty := by
  constructor
  · decide
  · decide

/-- C2 amended: a probe row is retained iff the code's actual normalization —
capitalize (first character uppercased, the rest lowercased) and then strip —
maps the raw priority into {Low, Medium, High, Critical}; a retained row gets
`priority_numeric` per the ordinal table, every other row is excluded and
never coerced.  Case-insensitivity therefore holds exactly for values
without leading whitespace. -/
theorem c2_priority_normalization (pS : String) :
    (∀ qv, priorityMapQ (capStrip pS) = some qv →
       clean (prioProbe pS) = .ok (probeKept (capStrip pS) qv)) ∧
    (priorityMapQ (capStrip pS) = none → clean (prioProbe pS) = .ok probeEmpty) := by
  constructor
  · intro qv hqv
    have hKey := priorityMapQ_some_mem _ _ hqv
    rw [clean_prioProbe pS, if_pos hKey]
    unfold probeKeptV probeKept keptRow5
    rw [pnVal_str _ _ hqv]
  · intro hqv
    have hKey := (priorityMapQ_none_iff _).mp hqv
    rw [clean_prioProbe pS, if_neg hKey]

/-- Witness for the amended C2: "LOW" (odd casing, no leading whitespace) is
retained with numeric 1, while " lOw " and "banana" are excluded. -/
theorem c2_priority_normalization_witness :
    clean (prioProbe "LOW") = .ok (probeKept "Low" (fq 1)) ∧
    clean (prioProbe "banana") = .ok probeEmpty := by
  constructor
  · have h := (c2_priority_normalization "LOW").1 (fq 1) (by decide)
    rw [show capStrip "LOW" = "Low" from by decide] at h
    exact h
  · exact (c2_priority_normalization "banana").2 (by decide)

theorem table_eta (t : Table) : Table.mk t.cols t.rows = t := by cases t; rfl

theorem filter_all_true {p : List Val → Bool} (l : List (List Val))
    (h : ∀ a ∈ l, p a = true) : l.filter p = l := by
  induction l with
  | nil => rfl
  | cons a as ih =>
    rw [List.filter_cons, h a (by simp), if_pos rfl]
    rw [ih (fun x hx => h x (by simp [hx]))]

theorem filterV_all_true {p : Val → Bool} (l : List Val)
    (h : ∀ a ∈ l, p a = true) : l.filter p = l := by
  induction l with
  | nil => rfl
  | cons a as ih =>
    rw [List.filter_cons, h a (by simp), if_pos rfl]
    rw [ih (fun x hx => h x (by simp [hx]))]

theorem capStrip_key (s : String) (h : s ∈ priorityKeys) : capStrip s = s := by
  rcases show s = "Low" ∨ s = "Medium" ∨ s = "High" ∨ s = "Critical" from by
      simpa [priorityKeys] using h with rfl | rfl | rfl | rfl <;> decide

theorem dateParse_id_of (v : Val) (h : isDateOrMissing v = true) : dateParse v = v := by
  cases v with
  | dateVal s => rfl
  | missing => rfl
  | num q => exact absurd h (by simp [isDateOrMissing])
  | str s => exact absurd h (by simp [isDateOrMissing])

theorem numVals_nil_of_all_missing (vals : List Val)
    (h : ∀ v ∈ vals, v = Val.missing) : numVals vals = [] := by
  induction vals with
  | nil => rfl
  | cons v vs ih =>
    have hv := h v (by simp)
    subst hv
    simp only [numVals, List.filterMap_cons]
    exact ih (fun x hx => h x (by simp [hx]))

theorem rowClean_elim (cols : List String) (iSp iT iPr iPn iD : Nat) (r : List Val)
    (h : rowClean cols iSp iT iPr iPn iD r = true) :
    r.length = cols.length ∧ getCell r iSp ≠ Val.missing ∧ getCell r iT ≠ Val.missing ∧
    (∃ s, getCell r iPr = Val.str s ∧ s ∈ priorityKeys) ∧
    getCell r iPn = pnVal (getCell r iPr) ∧ isDateOrMissing (getCell r iD) = true := by
  unfold rowClean at h
  rcases Bool.and_eq_true_iff.mp h with ⟨h5, hdate⟩
  rcases Bool.and_eq_true_iff.mp h5 with ⟨h4, hpn⟩
  rcases Bool.and_eq_true_iff.mp h4 with ⟨h3, hprio⟩
  rcases Bool.and_eq_true_iff.mp h3 with ⟨h2, ht⟩
  rcases Bool.and_eq_true_iff.mp h2 with ⟨hlen, hsp⟩
  refine ⟨of_decide_eq_true hlen, of_decide_eq_true hsp, of_decide_eq_true ht, ?_,
    of_decide_eq_true hpn, hdate⟩
  cases hv : getCell r iPr with
  | str s =>
    rw [hv] at hprio
    replace hprio : decide (s ∈ priorityKeys) = true := hprio
    exact ⟨s, rfl, of_decide_eq_true hprio⟩
  | num q => rw [hv] at hprio; exact absurd hprio (by simp)
  | dateVal s => rw [hv] at hprio; exact absurd hprio (by simp)
  | missing => rw [hv] at hprio; exact absurd hprio (by simp)

theorem imputeNumericCol_id (t : Table) (i : Nat) (hst : colStable t i = true)
    (hk : colKind (colVals t i) = .numeric) : imputeNumericCol t i = t := by
  unfold colStable at hst
  rw [hk] at hst
  replace hst : (decide (¬ Val.missing ∈ colVals t i) ||
      (colVals t i).all (fun v => decide (v = Val.missing))) = true := hst
  rcases Bool.or_eq_true_iff.mp hst with hnm | ham
  · replace hnm := of_decide_eq_true hnm
    unfold imputeNumericCol
    cases hm : medianQ (numVals (colVals t i)) with
    | none => rfl
    | some m =>
      show Table.mk t.cols (t.rows.map
        (fun r => if getCell r i = Val.missing then setCell r i (Val.num m) else r)) = t
      rw [map_eq_self_of_mem _ _ (fun r hr => by
        rw [if_neg (fun he => hnm (by
          rw [← he]
          exact List.mem_map_of_mem (fun r => getCell r i) hr))])]
  · have hnv : numVals (colVals t i) = [] := numVals_nil_of_all_missing _
      (fun v hv => of_decide_eq_true (List.all_eq_true.mp ham v hv))
    unfold imputeNumericCol
    rw [hnv]
    rfl

theorem imputeNumericAux_id (ks : List ColKind) (t : Table) (l : List Nat)
    (h : ∀ i ∈ l, ks.getD i .object = .numeric → imputeNumericCol t i = t) :
    imputeNumericAux ks t l = t := by
  induction l with
  | nil => rfl
  | cons i is ih =>
    simp only [imputeNumericAux]
    by_cases hk : ks.getD i .object = .numeric
    · rw [if_pos hk, h i (by simp) hk]
      exact ih (fun j hj => h j (by simp [hj]))
    · rw [if_neg hk]
      exact ih (fun j hj => h j (by simp [hj]))

theorem imputeCatCol_id (t : Table) (i : Nat) (hne : t.rows ≠ [])
    (hnm : ¬ Val.missing ∈ colVals t i) : imputeCatCol t i = .ok t := by
  have hvals : nonMissing (colVals t i) = colVals t i :=
    filterV_all_true _ (fun v hv => decide_eq_true (fun he => hnm (he ▸ hv)))
  have hvne : nonMissing (colVals t i) ≠ [] := by
    rw [hvals]
    unfold colVals
    cases hr : t.rows with
    | nil => exact absurd hr hne
    | cons r rs => simp
  rcases modeVal_isSome_of_ne _ hvne with ⟨m, hm⟩
  unfold imputeCatCol
  rw [hm]
  show Except.ok (Table.mk t.cols (t.rows.map
    (fun r => if getCell r i = Val.missing then setCell r i m else r))) = Except.ok t
  rw [map_eq_self_of_mem _ _ (fun r hr => by
    rw [if_neg (fun he => hnm (by
      rw [← he]
      exact List.mem_map_of_mem (fun r => getCell r i) hr))]), table_eta]

theorem imputeCategoricalAux_id (ks : List ColKind) (t : Table) (l : List Nat)
    (h : ∀ i ∈ l, ks.getD i .object = .object → imputeCatCol t i = .ok t) :
    imputeCategoricalAux t ks l = .ok t := by
  induction l with
  | nil => rfl
  | cons i is ih =>
    simp only [imputeCategoricalAux]
    by_cases hk : ks.getD i .object = .object
    · rw [if_pos hk, h i (by simp) hk]
      exact ih (fun j hj => h j (by simp [hj]))
    · rw [if_neg hk]
      exact ih (fun j hj => h j (by simp [hj]))

theorem parseDates_id (t : Table) (iD : Nat) (hiD : colIdx "date" t.cols = some iD)
    (hrows : ∀ r ∈ t.rows, isDateOrMissing (getCell r iD) = true) :
    parseDates t = .ok t := by
  unfold parseDates
  rw [hiD]
  show Except.ok (Table.mk t.cols (t.rows.map
    (fun r => setCell r iD (dateParse (getCell r iD))))) = Except.ok t
  rw [map_eq_self_of_mem _ _ (fun r hr => by
    rw [dateParse_id_of _ (hrows r hr), setCell_getCell_self]), table_eta]

theorem colKind_object_of_str (vals : List Val) (hne : vals ≠ [])
    (hstr : ∀ v ∈ vals, ∃ s, v = Val.str s) : colKind vals = .object := by
  cases vals with
  | nil => exact absurd rfl hne
  | cons v vs =>
    rcases hstr v (by simp) with ⟨s, rfl⟩
    have h1 : ((Val.str s :: vs).all isNumOrMissing) = false := by
      rw [List.all_cons]
      rfl
    have h2 : ((Val.str s :: vs).all isDateOrMissing) = false := by
      rw [List.all_cons]
      rfl
    unfold colKind
    rw [h1, h2, Bool.and_false, Bool.and_false]
    rfl

theorem priorityStep_id (t : Table) (ks : List ColKind) (iPr iPn : Nat)
    (hiPr : colIdx "priority" t.cols = some iPr)
    (hiPn : colIdx "priority_numeric" t.cols = some iPn)
    (hkObj : ks.getD iPr .object = .object)
    (hprio : ∀ r ∈ t.rows, ∃ s, getCell r iPr = Val.str s ∧ s ∈ priorityKeys)
    (hpn : ∀ r ∈ t.rows, getCell r iPn = pnVal (getCell r iPr)) :
    priorityStep t ks = .ok t := by
  unfold priorityStep
  rw [hiPr]
  show (if ks.getD iPr ColKind.object ≠ ColKind.object
        then Except.error (SchemaError.notStringColumn "priority")
        else Except.ok (priorityCore t iPr)) = Except.ok t
  rw [if_neg (by rw [hkObj]; exact fun hcon => hcon rfl)]
  have hcore : priorityCore t iPr = t := by
    unfold priorityCore
    rw [hiPn]
    have hT : t.rows.map (fun r => setCell r iPr (prioNormV (getCell r iPr))) = t.rows :=
      map_eq_self_of_mem _ _ (fun r hr => by
        rcases hprio r hr with ⟨s, hs, hk⟩
        rw [hs]
        show setCell r iPr (Val.str (capStrip s)) = r
        rw [capStrip_key s hk, ← hs, setCell_getCell_self])
    have hF : t.rows.filter (prioKeep iPr) = t.rows :=
      filter_all_true _ (fun r hr => by
        rcases hprio r hr with ⟨s, hs, hk⟩
        unfold prioKeep
        rw [hs]
        exact decide_eq_true hk)
    have hPN : t.rows.map (fun r => setCell r iPn (pnVal (getCell r iPr))) = t.rows :=
      map_eq_self_of_mem _ _ (fun r hr => by rw [← hpn r hr, setCell_getCell_self])
    rw [hT, hF]
    show Table.mk t.cols (t.rows.map (fun r => setCell r iPn (pnVal (getCell r iPr)))) = t
    rw [hPN]
  rw [hcore]

theorem dedupTable_id (t : Table) (hnodup : t.rows.Nodup) : dedupTable t = t := by
  unfold dedupTable
  rw [dedupAux_eq_self t.rows [] hnodup (fun r _ => List.not_mem_nil r)]

/-- C4 amended: on an already-clean table (the §3 data-model guarantees:
normalized columns with `priority_numeric` attached, required fields present,
priorities in the ordinal set, dates parsed, stable columns, no duplicates),
re-running the cleaner leaves steps 1-7 as the identity and re-applies only
the IQR outlier filter with bounds recomputed from the clean table itself;
every surviving row was already a row of the table, but rows can be dropped
again (so full idempotence fails, see the counterexample). -/
theorem c4_reclean_is_iqr_only (c : Table) (h : isCleanB c = true) :
    clean c = .ok (iqrStep c) ∧ ∀ r ∈ (iqrStep c).rows, r ∈ c.rows := by
  refine ⟨?_, fun r hr => iqrStep_mem c r hr⟩
  unfold isCleanB at h
  cases hiSp : colIdx "sales_person" c.cols with
  | none =>
    rw [hiSp] at h
    replace h : false = true := h
    exact Bool.noConfusion h
  | some iSp =>
  cases hiT : colIdx "total_sales_value" c.cols with
  | none =>
    rw [hiSp, hiT] at h
    replace h : false = true := h
    exact Bool.noConfusion h
  | some iT =>
  cases hiPr : colIdx "priority" c.cols with
  | none =>
    rw [hiSp, hiT, hiPr] at h
    replace h : false = true := h
    exact Bool.noConfusion h
  | some iPr =>
  cases hiPn : colIdx "priority_numeric" c.cols with
  | none =>
    rw [hiSp, hiT, hiPr, hiPn] at h
    replace h : false = true := h
    exact Bool.noConfusion h
  | some iPn =>
  cases hiD : colIdx "date" c.cols with
  | none =>
    rw [hiSp, hiT, hiPr, hiPn, hiD] at h
    replace h : false = true := h
    exact Bool.noConfusion h
  | some iD =>
  rw [hiSp, hiT, hiPr, hiPn, hiD] at h
  replace h : (decide (c.cols.map normName = c.cols) &&
      decide ("value_" ∉ c.cols) &&
      decide (c.rows ≠ []) &&
      c.rows.all (rowClean c.cols iSp iT iPr iPn iD) &&
      (List.range c.cols.length).all (colStable c) &&
      decide c.rows.Nodup) = true := h
  rcases Bool.and_eq_true_iff.mp h with ⟨h5, hnodup'⟩
  rcases Bool.and_eq_true_iff.mp h5 with ⟨h4, hcolsAll⟩
  rcases Bool.and_eq_true_iff.mp h4 with ⟨h3, hrowsAll⟩
  rcases Bool.and_eq_true_iff.mp h3 with ⟨h2, hne'⟩
  rcases Bool.and_eq_true_iff.mp h2 with ⟨hnorm', hval'⟩
  have hnorm := of_decide_eq_true hnorm'
  have hval := of_decide_eq_true hval'
  have hne := of_decide_eq_true hne'
  have hnodup := of_decide_eq_true hnodup'
  have hrows := List.all_eq_true.mp hrowsAll
  have hcols := List.all_eq_true.mp hcolsAll
  have e_norm : normalizeCols c = c := by
    unfold normalizeCols
    rw [hnorm]
  have e_ren : renameValueCol c = c := by
    unfold renameValueCol
    rw [if_neg hval]
  have e_stage1 : stage1 c = c := by
    unfold stage1
    rw [e_norm, e_ren]
  have hksGetD : ∀ i, i < c.cols.length →
      (stageKinds c).getD i .object = colKind (colVals c i) := by
    intro i hi
    unfold stageKinds
    rw [e_stage1]
    exact getD_map_range _ _ i hi _
  have e_drop : dropRequired c = .ok c := by
    unfold dropRequired
    rw [hiSp, hiT]
    show Except.ok (Table.mk c.cols (c.rows.filter (fun r =>
      decide (getCell r iSp ≠ Val.missing) && decide (getCell r iT ≠ Val.missing))))
      = Except.ok c
    rw [filter_all_true _ (fun r hr => by
      rcases rowClean_elim _ _ _ _ _ _ _ (hrows r hr) with ⟨-, h1, h2, -, -, -⟩
      rw [decide_eq_true h1, decide_eq_true h2]
      rfl), table_eta]
  have e_num : imputeNumeric c (stageKinds c) = c := by
    unfold imputeNumeric
    refine imputeNumericAux_id _ _ _ (fun i hi hik => ?_)
    have hilt := List.mem_range.mp hi
    exact imputeNumericCol_id c i (hcols i hi) (by rw [← hksGetD i hilt]; exact hik)
  have e_cat : imputeCategorical c (stageKinds c) = .ok c := by
    unfold imputeCategorical
    refine imputeCategoricalAux_id _ _ _ (fun i hi hik => ?_)
    have hilt := List.mem_range.mp hi
    have hk' : colKind (colVals c i) = .object := by rw [← hksGetD i hilt]; exact hik
    have hst := hcols i hi
    unfold colStable at hst
    rw [hk'] at hst
    replace hst : decide (¬ Val.missing ∈ colVals c i) = true := hst
    exact imputeCatCol_id c i hne (of_decide_eq_true hst)
  have e_dates : parseDates c = .ok c :=
    parseDates_id c iD hiD (fun r hr =>
      (rowClean_elim _ _ _ _ _ _ _ (hrows r hr)).2.2.2.2.2)
  have hprioRows : ∀ r ∈ c.rows, ∃ s, getCell r iPr = Val.str s ∧ s ∈ priorityKeys :=
    fun r hr => (rowClean_elim _ _ _ _ _ _ _ (hrows r hr)).2.2.2.1
  have e_kObj : (stageKinds c).getD iPr .object = .object := by
    rw [hksGetD iPr (colIdx_lt_length _ _ _ hiPr)]
    refine colKind_object_of_str _ ?_ ?_
    · unfold colVals
      cases hrc : c.rows with
      | nil => exact absurd hrc hne
      | cons r rs => simp
    · intro v hv
      unfold colVals at hv
      rcases List.mem_map.mp hv with ⟨r, hr, hveq⟩
      rcases hprioRows r hr with ⟨s, hs, -⟩
      exact ⟨s, by rw [← hveq, hs]⟩
  have e_prio : priorityStep c (stageKinds c) = .ok c :=
    priorityStep_id c _ iPr iPn hiPr hiPn e_kObj hprioRows
      (fun r hr => (rowClean_elim _ _ _ _ _ _ _ (hrows r hr)).2.2.2.2.1)
  have e_dedup : dedupTable c = c := dedupTable_id c hnodup
  have e_pre : preOutlier c = .ok c := by
    unfold preOutlier
    simp only [e_stage1, e_drop, except_bind_ok, e_num, e_cat, e_dates, e_prio,
      except_map_ok, e_dedup]
  unfold clean
  rw [e_pre]
  rfl

/-- Witness for the amended C4 at a concrete clean one-row table (whose
recomputed IQR bounds keep the row, so re-cleaning is the identity here). -/
theorem c4_reclean_is_iqr_only_witness :
    clean (probeKept "Low" (fq 1)) = .ok (iqrStep (probeKept "Low" (fq 1))) :=
  (c4_reclean_is_iqr_only (probeKept "Low" (fq 1)) (by decide)).1
